import Mathlib

/-!
Verification development for the gff-nostream GFF3 parsing library.

The TypeScript sources are shallowly embedded as executable Lean
definitions:

* JavaScript strings are modelled as Lean `String`/`List Char`
  (Unicode scalar values; all inputs appearing in the claims are in the
  Basic Multilingual Plane, where JS UTF-16 code units and scalar values
  coincide).
* JavaScript numbers produced by `parseInt`/`parseFloat`/unary `+` are
  modelled by `JsNum`: an exact rational value, `nan`, or a signed
  infinity.  (Binary floating-point rounding is not modelled; no theorem
  below depends on the value of a score.)
* JavaScript objects used as string-keyed dictionaries are modelled as
  association lists that keep insertion order, matching the iteration
  order of non-integer-like string keys in JS objects.
* Thrown exceptions are modelled with `Except String` / `Option`.
-/

namespace GffNostream

/-- JavaScript number result of `parseInt` / `parseFloat` / unary `+`:
a finite (rational) value, `NaN`, or a signed infinity. -/
inductive JsNum where
  | val : Rat → JsNum
  | nan : JsNum
  | posInf : JsNum
  | negInf : JsNum
deriving DecidableEq, Repr

/-- The JavaScript regex `\s` character class (WhiteSpace ∪ LineTerminator):
used by `^\s*...` line-classification regexes and by `String.prototype.trim`. -/
def jsWs (c : Char) : Bool :=
  c = '\t' || c = '\n' || c.toNat = 0xb || c.toNat = 0xc || c = '\r' || c = ' ' ||
  c.toNat = 0xa0 || c.toNat = 0x1680 ||
  (0x2000 ≤ c.toNat && c.toNat ≤ 0x200a) ||
  c.toNat = 0x2028 || c.toNat = 0x2029 || c.toNat = 0x202f ||
  c.toNat = 0x205f || c.toNat = 0x3000 || c.toNat = 0xfeff

/-- JavaScript ECMAScript LineTerminator characters (not matched by `.`). -/
def jsLineTerm (c : Char) : Bool :=
  c = '\n' || c = '\r' || c.toNat = 0x2028 || c.toNat = 0x2029

/-- `String.prototype.trim`, on character lists. -/
def trimChars (l : List Char) : List Char :=
  ((l.dropWhile jsWs).reverse.dropWhile jsWs).reverse

/-- `String.prototype.trim`. -/
def trimJs (s : String) : String :=
  ⟨trimChars s.data⟩

/-- `String.prototype.trimStart`. -/
def trimStartJs (s : String) : String :=
  ⟨s.data.dropWhile jsWs⟩

/-- Hexadecimal digit test, as in the regex class `[0-9A-Fa-f]`. -/
def isHexDigit (c : Char) : Bool :=
  ('0' ≤ c && c ≤ '9') || ('A' ≤ c && c ≤ 'F') || ('a' ≤ c && c ≤ 'f')

/-- Numeric value of a hexadecimal digit character. -/
def hexDigitVal (c : Char) : Nat :=
  if '0' ≤ c && c ≤ '9' then c.toNat - '0'.toNat
  else if 'A' ≤ c && c ≤ 'F' then c.toNat - 'A'.toNat + 10
  else if 'a' ≤ c && c ≤ 'f' then c.toNat - 'a'.toNat + 10
  else 0

/-- Upper-case hexadecimal digit character for a value `< 16`. -/
def hexDigitUpper (n : Nat) : Char :=
  if n < 10 then Char.ofNat ('0'.toNat + n)
  else Char.ofNat ('A'.toNat + (n - 10))

/-- `n.toString(16).toUpperCase().padStart(2, '0')` for a byte `n ≤ 0xff`,
as used by the `_escape` helper in util.ts. -/
def toHexUpper2 (n : Nat) : List Char :=
  [hexDigitUpper (n / 16 % 16), hexDigitUpper (n % 16)]

/-- Decimal digit test. -/
def isDigit (c : Char) : Bool :=
  '0' ≤ c && c ≤ '9'

/-- Value of the leading decimal-digit run (`none` when there are no digits),
together with the remaining characters. -/
def takeDigits : List Char → (List Char × List Char)
  | [] => ([], [])
  | c :: rest =>
    if isDigit c then
      let (ds, r) := takeDigits rest
      (c :: ds, r)
    else ([], c :: rest)

/-- Natural-number value of a digit list (most significant first). -/
def digitsToNat (l : List Char) : Nat :=
  l.foldl (fun acc c => acc * 10 + (c.toNat - '0'.toNat)) 0

/-- The exact rational value `±(mantissa) · 10^expo` where `mantissa` is the
digit string `ip ++ fp` read with `fp.length` fractional digits.  Built with
`mkRat` and integer arithmetic only (cf. `Rat.mul` being irreducible). -/
def decimalValue (neg : Bool) (ip fp : List Char) (expo : Int) : Rat :=
  let m : Int := (digitsToNat (ip ++ fp) : Nat)
  let m := if neg then -m else m
  if 0 ≤ expo then mkRat (m * ((10 : Int) ^ expo.toNat)) ((10 : Nat) ^ fp.length)
  else mkRat m ((10 : Nat) ^ fp.length * (10 : Nat) ^ (-expo).toNat)

/-- `parseInt(s, 10)`: skip leading JS whitespace, optional sign, then the
longest run of decimal digits; `NaN` when that run is empty. -/
def parseIntR10 (s : String) : JsNum :=
  let l := s.data.dropWhile jsWs
  let (neg, l) :=
    match l with
    | '-' :: r => (true, r)
    | '+' :: r => (false, r)
    | r => (false, r)
  let (ds, _) := takeDigits l
  if ds.isEmpty then .nan
  else
    let i : Int := (digitsToNat ds : Nat)
    .val (Rat.ofInt (if neg then -i else i))

/-- `parseFloat(s)`: skip leading JS whitespace, optional sign, then the
longest `StrDecimalLiteral` prefix (`Infinity`, or digits with optional
fraction and exponent); `NaN` when no prefix parses. -/
def parseFloatJs (s : String) : JsNum :=
  let l := s.data.dropWhile jsWs
  let (neg, l) :=
    match l with
    | '-' :: r => (true, r)
    | '+' :: r => (false, r)
    | r => (false, r)
  if l.take 8 = "Infinity".data then
    if neg then .negInf else .posInf
  else
    let (ip, r1) := takeDigits l
    let (fp, r2) :=
      match r1 with
      | '.' :: r => takeDigits r
      | r => ([], r)
    if ip.isEmpty && fp.isEmpty then .nan
    else
      let expo : Int :=
        match r2 with
        | 'e' :: r | 'E' :: r =>
          let (es, r) :=
            match r with
            | '-' :: rr => ((-1 : Int), rr)
            | '+' :: rr => (1, rr)
            | rr => (1, rr)
          let (eds, _) := takeDigits r
          if eds.isEmpty then 0 else es * (digitsToNat eds : Nat)
        | _ => 0
      .val (decimalValue neg ip fp expo)

/-- Unary `+str` (the JS `ToNumber` conversion on strings): whitespace-only
is `0`, otherwise the whole string must be a numeric literal (decimal,
`Infinity`, or `0x` hexadecimal), else `NaN`. -/
def jsToNumber (s : String) : JsNum :=
  let l := trimChars s.data
  if l.isEmpty then .val 0
  else
    let (neg, l1) :=
      match l with
      | '-' :: r => (true, r)
      | '+' :: r => (false, r)
      | r => (false, r)
    if l1 = "Infinity".data then (if neg then .negInf else .posInf)
    else
      match l1 with
      | '0' :: 'x' :: r | '0' :: 'X' :: r =>
        if neg then .nan
        else if r ≠ [] && r.all isHexDigit then
          .val (Rat.ofInt ((r.foldl (fun acc c => acc * 16 + hexDigitVal c) 0 : Nat) : Int))
        else .nan
      | _ =>
        let (ip, r1) := takeDigits l1
        let (fp, r2) :=
          match r1 with
          | '.' :: r => takeDigits r
          | r => ([], r)
        if ip.isEmpty && fp.isEmpty then .nan
        else
          match r2 with
          | [] => .val (decimalValue neg ip fp 0)
          | 'e' :: r | 'E' :: r =>
            let (es, r3) :=
              match r with
              | '-' :: rr => ((-1 : Int), rr)
              | '+' :: rr => (1, rr)
              | rr => (1, rr)
            let (eds, r4) := takeDigits r3
            if eds.isEmpty || r4 ≠ [] then .nan
            else .val (decimalValue neg ip fp (es * (digitsToNat eds : Nat)))
          | _ => .nan

/-- `str.split(sep)` for a single-character separator, on character lists:
`""` splits to `[""]`, separators at the ends produce empty pieces. -/
def splitOnC (sep : Char) : List Char → List (List Char)
  | [] => [[]]
  | c :: rest =>
    let r := splitOnC sep rest
    if c = sep then [] :: r
    else
      match r with
      | h :: t => (c :: h) :: t
      | [] => [[c]]

/-! ### src/src/util.ts (module used by the streaming Parser):
`unescape`, `escape`, `parseAttributes`, `parseFieldsArray`, `parseFeature` -/

/-- Scanner semantics of
`stringVal.replaceAll(/%([0-9A-Fa-f]{2})/g, (m, seq) => String.fromCharCode(parseInt(seq, 16)))`:
left-to-right, each `%` followed by two hex digits becomes the character
with that code, everything else is copied. -/
def unescapeChars : List Char → List Char
  | [] => []
  | '%' :: a :: b :: rest =>
    if isHexDigit a && isHexDigit b then
      Char.ofNat (16 * hexDigitVal a + hexDigitVal b) :: unescapeChars rest
    else '%' :: unescapeChars (a :: b :: rest)
  | c :: rest => c :: unescapeChars rest

/-- util.ts `unescape`: return the string unchanged when it contains no `%`,
otherwise replace every `%XX` (hex, case-insensitive) by the character with
code `XX`. -/
def unescapeU (s : String) : String :=
  if s.data.contains '%' then ⟨unescapeChars s.data⟩ else s

/-- The character class of util.ts `attrEscapeRegex`
`[\n;\r\t=%&,\u0000-\u001f\u007f-ÿ]`. -/
def attrEscapeChar (c : Char) : Bool :=
  c = '\n' || c = ';' || c = '\r' || c = '\t' || c = '=' || c = '%' ||
  c = '&' || c = ',' || c.toNat ≤ 0x1f || (0x7f ≤ c.toNat && c.toNat ≤ 0xff)

/-- `_escape` applied to a character class predicate: replace every matching
character by `%` followed by its two upper-case hex digits. -/
def escapeCharsWith (p : Char → Bool) : List Char → List Char
  | [] => []
  | c :: rest =>
    (if p c then '%' :: toHexUpper2 c.toNat else [c]) ++ escapeCharsWith p rest

/-- util.ts `escape` (attribute-value escaping).  The source also accepts
numbers via `String(s)`; only the string case is modelled. -/
def escapeU (s : String) : String :=
  ⟨escapeCharsWith attrEscapeChar s.data⟩

/-- GFF3 attributes: a JS object mapping tag to value array, modelled as an
insertion-ordered association list. -/
abbrev Attrs := List (String × List String)

/-- First-match association-list lookup (JS object property read). -/
def alookup {α : Type} : List (String × α) → String → Option α
  | [], _ => none
  | (k, v) :: t, key => if k = key then some v else alookup t key

/-- Association-list update-or-append (JS object property write: an existing
key keeps its position, a new key is appended). -/
def aset {α : Type} : List (String × α) → String → α → List (String × α)
  | [], key, v => [(key, v)]
  | (k, w) :: t, key, v =>
    if k = key then (k, v) :: t else (k, w) :: aset t key v

/-- Association-list key removal (JS `delete obj[key]`). -/
def aremove {α : Type} : List (String × α) → String → List (String × α)
  | [], _ => []
  | (k, w) :: t, key => if k = key then t else (k, w) :: aremove t key

/-- `attrs[tag]` get-or-create followed by pushing `vals` onto the array
(`arec.push(...)`): an existing tag accumulates in place, a new tag is
appended at the end. -/
def attrsPush (attrs : Attrs) (tag : String) (vals : List String) : Attrs :=
  match alookup attrs tag with
  | some old => aset attrs tag (old ++ vals)
  | none => attrs ++ [(tag, vals)]

/-- Strip one trailing `\n` or `\r\n`
(`if (str.endsWith('\n')) str = str.slice(0, str.endsWith('\r\n') ? -2 : -1)`). -/
def stripTrailNl (l : List Char) : List Char :=
  if l.getLast? = some '\n' then
    if (l.dropLast).getLast? = some '\r' then l.dropLast.dropLast else l.dropLast
  else l

/-- One `;`-record of util.ts `parseAttributes`: find the first `=`
(`a.indexOf('=')`, skip when absent), skip when the value part is empty,
trim the tag, split the value on `,`, trim and unescape every field
(empty fields included), and accumulate under the tag. -/
def parseAttrRecordU (attrs : Attrs) (a : List Char) : Attrs :=
  let tagPart := a.takeWhile (· ≠ '=')
  if tagPart.length = a.length then attrs  -- no '=' in the record
  else
    let value := a.drop (tagPart.length + 1)
    if value.isEmpty then attrs
    else
      let tag := trimJs ⟨tagPart⟩
      let vals := (splitOnC ',' value).map (fun v => unescapeU (trimJs ⟨v⟩))
      attrsPush attrs tag vals

/-- util.ts `parseAttributes` (the variant the streaming Parser uses):
`{}` for the empty string or `"."`; otherwise strip one trailing line
ending, split on `;`, and process each record. -/
def parseAttributesU (s : String) : Attrs :=
  if s.data.isEmpty || s = "." then []
  else
    (splitOnC ';' (stripTrailNl s.data)).foldl parseAttrRecordU []

/-- A decoded GFF3 feature line (`GFF3FeatureLine`). -/
structure FeatureLine where
  seq_id : Option String
  source : Option String
  type : Option String
  start : Option JsNum
  end_ : Option JsNum
  score : Option JsNum
  strand : Option String
  phase : Option String
  attributes : Option Attrs
deriving DecidableEq, Repr, Inhabited

/-- util.ts `norm`: `'.'`, `''`, `undefined` (and `null`) become `null`. -/
def normU (a : Option String) : Option String :=
  match a with
  | none => none
  | some s => if s = "." || s = "" then none else some s

/-- util.ts `parseFieldsArray` on a (possibly short) list of fields; a
missing index reads as `undefined`, i.e. `none`. -/
def parseFieldsArrayU (f : List (Option String)) : FeatureLine :=
  let get := fun i => (f.getD i none)
  let seq_id := normU (get 0)
  let source := normU (get 1)
  let type := normU (get 2)
  let start := normU (get 3)
  let end_ := normU (get 4)
  let score := normU (get 5)
  let strand := normU (get 6)
  let phase := normU (get 7)
  let attrString := normU (get 8)
  { seq_id := seq_id.map unescapeU
    source := source.map unescapeU
    type := type.map unescapeU
    start := start.map parseIntR10
    end_ := end_.map parseIntR10
    score := score.map parseFloatJs
    strand := strand
    phase := phase
    attributes := attrString.map parseAttributesU }

/-- util.ts `parseFeature`: split the line on tabs and decode the fields. -/
def parseFeatureU (line : String) : FeatureLine :=
  parseFieldsArrayU ((splitOnC '\t' line.data).map (fun l => some ⟨l⟩))

/-! ### The streaming `Parser` class (reference resolver) of src/src/api.ts

JS object references are modelled with arenas: `lines` is the arena of
decoded feature lines, `feats` the arena of features (each feature is the
list of its line indices, mirroring the JS array of `GFF3FeatureLineWithRefs`),
and the per-line mutable `child_features` / `derived_features` arrays live
in `childF` / `derivedF`, indexed by line index.  Aliasing in the JS heap
(a feature array shared by `byId`, the top-level queue, orphan lists and
child lists) becomes sharing of arena indices.  Emission delivers a feature
index; the object a JS caller receives is the arena entry, read after the
run (matching the synchronous callers, which inspect features only after
`finish`). -/

/-- Parser configuration: `bufferSize` (`none` = `Infinity`, the default),
`disableDerivesFromReferences`, and whether the error callback throws (as
in `parseStringSync` / `parseArraySync`) or merely records the message. -/
structure PCfg where
  bufferSize : Option Nat
  ddr : Bool
  throwErrCb : Bool
deriving Repr

/-- The parser state.  `emittedF` records the feature indices delivered to
the feature callback, in delivery order. -/
structure PState where
  eof : Bool
  lineNumber : Nat
  lines : List FeatureLine
  childF : List (List Nat)
  derivedF : List (List Nat)
  feats : List (List Nat)
  topLevel : List Nat
  byId : List (String × Nat)
  completedRefs : List (String × List String)
  orphans : List (String × (List Nat × List Nat))
  emittedF : List Nat
  directives : List (String × Option String)
  comments : List String
  errors : List String
deriving DecidableEq, Repr, Inhabited

/-- The initial parser state. -/
def initPState : PState :=
  { eof := false, lineNumber := 0, lines := [], childF := [], derivedF := []
    feats := [], topLevel := [], byId := [], completedRefs := [], orphans := []
    emittedF := [], directives := [], comments := [], errors := [] }

/-- `ids` of a decoded line: `featureLine.attributes?.ID || []`. -/
def lineIds (fl : FeatureLine) : List String :=
  (fl.attributes.bind (alookup · "ID")).getD []

/-- `parents` of a decoded line: `featureLine.attributes?.Parent || []`. -/
def lineParents (fl : FeatureLine) : List String :=
  (fl.attributes.bind (alookup · "Parent")).getD []

/-- `derives` of a decoded line: `[]` when `disableDerivesFromReferences`
is set, else `featureLine.attributes?.Derives_from || []`. -/
def lineDerives (cfg : PCfg) (fl : FeatureLine) : List String :=
  if cfg.ddr then [] else (fl.attributes.bind (alookup · "Derives_from")).getD []

/-- Read an arena slot (`l[i]`, always in range when reached). -/
def lget {α : Type} [Inhabited α] (l : List α) (i : Nat) : α :=
  l.getD i default

/-- `${v}` for a nullable string (JS renders `null` as `"null"`). -/
def optStr (o : Option String) : String :=
  o.getD "null"

/-- The `_parseError` message for a multi-line type mismatch, including the
`${this.lineNumber}: ` prefix added by `_parseError`. -/
def typeMismatchMsg (n : Nat) (id : String) (tNew tOld : Option String) : String :=
  toString n ++ ": multi-line feature \"" ++ id ++ "\" has inconsistent types: \"" ++
    optStr tNew ++ "\", \"" ++ optStr tOld ++ "\""

/-- The error thrown by `_emitAllUnderConstructionFeatures` when orphans
remain at a scope close. -/
def orphanErrMsg (keys : List String) : String :=
  "some features reference other features that do not exist in the file (or in the same '###' scope). "
    ++ String.intercalate "," keys

/-- The error thrown by `addLine` on a line matching none of the
classification regexes. -/
def cannotParseMsg (line : String) : String :=
  "GFF3 parse error.  Cannot parse '" ++ line ++ "'."

/-- One step of `_unbufferItem` for feature index `fi`: when the feature's
first line has a truthy first `ID` value, delete all of that line's IDs from
`byId` and `completedReferences`, then recurse (via `deeper`) into every
child and derived feature of every line. -/
def unbufferStep (deeper : Nat → PState → PState) (fi : Nat) (s : PState) : PState :=
  match lget s.feats fi with
  | [] => s
  | ℓ0 :: restLs =>
    let ids := lineIds (lget s.lines ℓ0)
    match ids.head? with
    | none => s
    | some id0 =>
      if id0 = "" then s  -- `item[0].attributes?.ID?.[0]` is falsy
      else
        let s := ids.foldl (fun s id =>
          { s with byId := aremove s.byId id
                   completedRefs := aremove s.completedRefs id }) s
        (ℓ0 :: restLs).foldl (fun s ℓ =>
          let s := (lget s.childF ℓ).foldl (fun s c => deeper c s) s
          (lget s.derivedF ℓ).foldl (fun s d => deeper d s) s) s

/-- `_unbufferItem` with explicit recursion depth.  The JS recursion is
unbounded (and would not terminate on a cyclic child graph); a depth of
`feats.length` covers every acyclic descent, and callers pass
`s.feats.length + 1`. -/
def unbufferItem : Nat → Nat → PState → PState
  | 0 => fun _ s => s
  | fuel + 1 => unbufferStep (unbufferItem fuel)

/-- Emit a feature index to the feature callback. -/
def emitFeature (fi : Nat) (s : PState) : PState :=
  { s with emittedF := s.emittedF ++ [fi] }

/-- The `while` loop of `_enforceBufferSizeLimit`: while
`topLevel.length + add > bufferSize`, shift the oldest top-level feature,
emit it and unbuffer it.  (`none` = `Infinity`: the loop never runs.  With
`bufferSize = 0` the JS loop would spin forever once the queue is empty;
the model stops there instead — no theorem below uses `bufferSize = 0`.) -/
def evictLoop (b : Option Nat) (add : Nat) : List Nat → PState → PState
  | [], s => { s with topLevel := [] }
  | h :: t, s =>
    match b with
    | none => { s with topLevel := h :: t }
    | some k =>
      if k < t.length + 1 + add then
        evictLoop b add t (unbufferItem (s.feats.length + 1) h (emitFeature h s))
      else { s with topLevel := h :: t }

/-- `_enforceBufferSizeLimit`. -/
def enforceBufferSizeLimit (cfg : PCfg) (add : Nat) (s : PState) : PState :=
  evictLoop cfg.bufferSize add s.topLevel s

/-- `_resolveReferencesTo(feature, id)`: if orphans are waiting for `id`,
push them onto the `child_features` / `derived_features` of every line of
the feature and delete the orphan entry. -/
def resolveReferencesTo (fi : Nat) (id : String) (s : PState) : PState :=
  match alookup s.orphans id with
  | none => s
  | some (ps, ds) =>
    let s := (lget s.feats fi).foldl (fun s ℓ =>
      { s with childF := s.childF.set ℓ (lget s.childF ℓ ++ ps)
               derivedF := s.derivedF.set ℓ (lget s.derivedF ℓ ++ ds) }) s
    { s with orphans := aremove s.orphans id }

/-- The duplicate-reference check of `_resolveReferencesFrom`: fold over the
line's `ids`, reading `completedReferences[id][domKey]` before setting it;
returns the `dominated` flag and the updated table. -/
def markCompletedRefs (ids : List String) (domKey : String)
    (cr : List (String × List String)) : Bool × List (String × List String) :=
  ids.foldl (fun (p : Bool × List (String × List String)) id =>
    let entry := (alookup p.2 id).getD []
    let dom := p.1 || entry.contains domKey
    let entry2 := if entry.contains domKey then entry else entry ++ [domKey]
    (dom, aset p.2 id entry2)) (false, cr)

/-- One reference kind of `_resolveReferencesFrom`: for each target id, if a
feature with that id is under construction, link (unless dominated by the
completed-reference table); otherwise record the referencing feature in the
orphan table.  `isParent` selects `child_features` vs `derived_features`. -/
def resolveRefsKind (isParent : Bool) (fi : Nat) (ids : List String)
    (targets : List String) (s : PState) : PState :=
  targets.foldl (fun s toId =>
    match alookup s.byId toId with
    | some other =>
      let domKey := (if isParent then "Parent," else "Derives_from,") ++ toId
      let (dom, cr) := markCompletedRefs ids domKey s.completedRefs
      let s := { s with completedRefs := cr }
      if dom then s
      else
        (lget s.feats other).foldl (fun s ℓ =>
          if isParent then
            { s with childF := s.childF.set ℓ (lget s.childF ℓ ++ [fi]) }
          else
            { s with derivedF := s.derivedF.set ℓ (lget s.derivedF ℓ ++ [fi]) }) s
    | none =>
      let (ps, ds) := (alookup s.orphans toId).getD ([], [])
      let entry := if isParent then (ps ++ [fi], ds) else (ps, ds ++ [fi])
      { s with orphans := aset s.orphans toId entry }) s

/-- `_resolveReferencesFrom(feature, references, ids)`. -/
def resolveReferencesFrom (fi : Nat) (parents derives : List String)
    (ids : List String) (s : PState) : PState :=
  resolveRefsKind false fi ids derives (resolveRefsKind true fi ids parents s)

/-- The body of `ids.forEach` in `_bufferParsedLine` for one `id`, where
`ℓ` is the arena index of the new line.  Returns the updated state and the
`feature` variable (an arena feature index).  On a type mismatch with a
throwing error callback the run aborts; otherwise the message is recorded,
`eof` is set, and — as in the source — the line is still appended. -/
def bufferIdStep (cfg : PCfg) (fl : FeatureLine) (ℓ : Nat)
    (parents derives : List String) (acc : PState × Option Nat) (id : String) :
    Except String (PState × Option Nat) := do
  let (s, _) := acc
  match alookup s.byId id with
  | some ex =>
    let lastType := (lget s.lines ((lget s.feats ex).getLastD 0)).type
    let s ←
      if lastType ≠ fl.type then
        let msg := typeMismatchMsg s.lineNumber id fl.type lastType
        if cfg.throwErrCb then throw msg
        else pure { s with errors := s.errors ++ [msg], eof := true }
      else pure s
    pure ({ s with feats := s.feats.set ex (lget s.feats ex ++ [ℓ]) }, some ex)
  | none =>
    let fi := s.feats.length
    let s := { s with feats := s.feats ++ [[ℓ]] }
    let s := enforceBufferSizeLimit cfg 1 s
    let s := if parents.isEmpty && derives.isEmpty then
               { s with topLevel := s.topLevel ++ [fi] }
             else s
    let s := { s with byId := aset s.byId id fi }
    pure (resolveReferencesTo fi id s, some fi)

/-- `_bufferParsedLine`. -/
def bufferParsedLine (cfg : PCfg) (fl : FeatureLine) (s : PState) :
    Except String PState := do
  let ℓ := s.lines.length
  let s := { s with lines := s.lines ++ [fl]
                    childF := s.childF ++ [[]]
                    derivedF := s.derivedF ++ [[]] }
  let ids := lineIds fl
  let parents := lineParents fl
  let derives := lineDerives cfg fl
  if ids.isEmpty && parents.isEmpty && derives.isEmpty then
    -- standalone singleton: `this._emitItem([featureLine])`
    let fi := s.feats.length
    pure (emitFeature fi { s with feats := s.feats ++ [[ℓ]] })
  else do
    let (s, feat?) ← ids.foldlM (bufferIdStep cfg fl ℓ parents derives) (s, none)
    match feat? with
    | some fi => pure (resolveReferencesFrom fi parents derives ids s)
    | none =>
      -- `feature || [featureLine]`: a fresh one-line feature
      let fi := s.feats.length
      let s := { s with feats := s.feats ++ [[ℓ]] }
      pure (resolveReferencesFrom fi parents derives ids s)

/-- `_emitAllUnderConstructionFeatures`: emit the top-level queue in order,
clear the construction tables, then die if orphans remain. -/
def emitAllUnderConstruction (s : PState) : Except String PState := do
  let s := { s with emittedF := s.emittedF ++ s.topLevel
                    topLevel := [], byId := [], completedRefs := [] }
  if s.orphans.isEmpty then pure s
  else throw (orphanErrMsg (s.orphans.map (·.1)))

/-- `addParsedFeatureLine`. -/
def addParsedFeatureLine (cfg : PCfg) (fl : FeatureLine) (s : PState) :
    Except String PState :=
  if s.eof then pure s
  else bufferParsedLine cfg fl { s with lineNumber := s.lineNumber + 1 }

/-- `finish`: flush everything (the end callback carries no data). -/
def finishP (s : PState) : Except String PState :=
  emitAllUnderConstruction s

/-! #### Line classification in `addLine` -/

/-- Test of `featureLineRegex = /^\s*[^#\s>]/`: the line has a first
non-whitespace character and it is neither `#` nor `>`. -/
def featureLineTest : List Char → Bool
  | [] => false
  | c :: rest => if jsWs c then featureLineTest rest else !(c = '#' || c = '>')

/-- Test of `commentOrDirectiveRegex = /^\s*(#+)(.*)/`: the first
non-whitespace character is `#`. -/
def commentDirectiveTest : List Char → Bool
  | [] => false
  | c :: rest => if jsWs c then commentDirectiveTest rest else c = '#'

/-- Test of `blankLineRegex = /^\s*$/` (on terminator-free lines):
the line is all whitespace. -/
def blankLineTest (l : List Char) : Bool :=
  l.all jsWs

/-- Test of `fastaStartRegex = /^\s*>/`: the first non-whitespace character
is `>`. -/
def fastaStartTest : List Char → Bool
  | [] => false
  | c :: rest => if jsWs c then fastaStartTest rest else c = '>'

/-- The two capture groups of `commentOrDirectiveRegex`: the run of `#`
signs and the rest of the line up to a line terminator (`.` does not match
line terminators). -/
def commentGroups (l : List Char) : Nat × List Char :=
  let afterWs := l.dropWhile jsWs
  let hashes := afterWs.takeWhile (· = '#')
  (hashes.length, (afterWs.drop hashes.length).takeWhile (fun c => !jsLineTerm c))

/-- util.ts `parseDirective`, reduced to the directive name and raw value
(`/^\s*##\s*(\S+)\s*(.*)/`; the `sequence-region` / `genome-build`
refinements carry no extra information used by the parser). -/
def parseDirectiveU (line : String) : Option (String × Option String) :=
  let l := line.data.dropWhile jsWs
  match l with
  | '#' :: '#' :: rest =>
    let rest := rest.dropWhile jsWs
    let name := rest.takeWhile (fun c => !jsWs c)
    if name.isEmpty then none
    else
      let contents := (rest.drop name.length).dropWhile jsWs
      let contents := (contents.reverse.dropWhile (fun c => c = '\n' || c = '\r')).reverse
      some (⟨name⟩, if contents.isEmpty then none else some ⟨contents⟩)
  | _ => none

/-- `lineEndingRegex = /\r?\n?$/g` application in the parse-error branch. -/
def stripLineEnd (s : String) : String :=
  ⟨stripTrailNl s.data⟩

/-- `addLine`. -/
def addLine (cfg : PCfg) (line : String) (s : PState) : Except String PState :=
  if s.eof then pure s
  else
    let s := { s with lineNumber := s.lineNumber + 1 }
    if featureLineTest line.data then
      bufferParsedLine cfg (parseFeatureU line) s
    else if commentDirectiveTest line.data then
      let (hashes, contents) := commentGroups line.data
      if hashes = 3 then
        -- sync directive: all forward references are resolved
        emitAllUnderConstruction s
      else if hashes = 2 then
        match parseDirectiveU line with
        | some d =>
          if d.1 = "FASTA" then do
            let s ← emitAllUnderConstruction s
            pure { s with eof := true }
          else pure { s with directives := s.directives ++ [d] }
        | none => pure s
      else
        pure { s with comments := s.comments ++ [trimStartJs ⟨contents⟩] }
    else if blankLineTest line.data then
      pure s
    else if fastaStartTest line.data then do
      let s ← emitAllUnderConstruction s
      pure { s with eof := true }
    else
      throw (cannotParseMsg (stripLineEnd line))

/-- The four line-classification regex tests are exhaustive: every line is
a feature line, a comment/directive line, a blank line, or a FASTA start —
so the final `else` (parse-error) branch of `addLine` is unreachable. -/
theorem lineClass_exhaustive (l : List Char) :
    featureLineTest l = true ∨ commentDirectiveTest l = true ∨
    blankLineTest l = true ∨ fastaStartTest l = true := by
  induction l with
  | nil => right; right; left; rfl
  | cons c rest ih =>
    by_cases hw : jsWs c = true
    · rcases ih with h | h | h | h
      · left; simpa [featureLineTest, hw] using h
      · right; left; simpa [commentDirectiveTest, hw] using h
      · right; right; left; simpa [blankLineTest, hw] using h
      · right; right; right; simpa [fastaStartTest, hw] using h
    · by_cases h1 : c = '#'
      · right; left; subst h1; simp +decide [commentDirectiveTest]
      · by_cases h2 : c = '>'
        · right; right; right; subst h2; simp +decide [fastaStartTest]
        · left; simp [featureLineTest, hw, h1, h2]

/-! #### Runners -/

/-- The configuration used by `parseStringSync` / `parseArraySync`:
unlimited buffer, `disableDerivesFromReferences: true`, throwing error
callback. -/
def syncCfg : PCfg :=
  { bufferSize := none, ddr := true, throwErrCb := true }

/-- Feed a list of text lines through `addLine` (no `finish` yet). -/
def feedStrings (cfg : PCfg) (ls : List String) : Except String PState :=
  ls.foldlM (fun s l => addLine cfg l s) initPState

/-- Feed a list of text lines through `addLine` and `finish`
(`parseArraySync`, and `parseStringSync` after its `split(/\r?\n/)`). -/
def runStrings (cfg : PCfg) (ls : List String) : Except String PState := do
  let s ← feedStrings cfg ls
  finishP s

/-- Resolver input events: a pre-decoded feature line
(`addParsedFeatureLine`) or a scope-close sync marker (a `###` line). -/
inductive REvent where
  | line : FeatureLine → REvent
  | sync : REvent
deriving DecidableEq, Repr

/-- Process one resolver event. -/
def stepEvent (cfg : PCfg) (s : PState) : REvent → Except String PState
  | .line fl => addParsedFeatureLine cfg fl s
  | .sync =>
    if s.eof then pure s
    else emitAllUnderConstruction { s with lineNumber := s.lineNumber + 1 }

/-- Feed a list of resolver events, then `finish`. -/
def runEvents (cfg : PCfg) (evs : List REvent) : Except String PState := do
  let s ← evs.foldlM (stepEvent cfg) initPState
  finishP s

/-! ### The `decodeURIComponent`-based fast util module (src/unnamed/part_002)

Its `unescape` is `s.indexOf('%') === -1 ? s : decodeURIComponent(s)`.
`decodeURIComponent` follows the ECMAScript `Decode` abstract operation
with an empty reserved set: every `%` must be followed by two hexadecimal
digits, and percent-encoded bytes with the high bit set must form a valid
UTF-8 sequence (no overlong forms, no surrogates, max U+10FFFF); otherwise
a `URIError` is thrown, modelled as `none`. -/

/-- UTF-8 continuation byte test (`0x80 ≤ b ≤ 0xbf`). -/
def contByte (b : Nat) : Bool :=
  0x80 ≤ b && b ≤ 0xbf

/-- The ECMAScript `Decode` abstract operation with an empty reserved set
(`decodeURIComponent`), on character lists; `none` models a thrown
`URIError`. -/
def decodeUriComp : List Char → Option (List Char)
  | [] => some []
  | '%' :: a :: b :: rest =>
    if isHexDigit a && isHexDigit b then
      let byte1 := 16 * hexDigitVal a + hexDigitVal b
      if byte1 < 0x80 then do
        pure (Char.ofNat byte1 :: (← decodeUriComp rest))
      else if byte1 ≤ 0xbf then none  -- continuation byte cannot start
      else if byte1 ≤ 0xdf then
        match rest with
        | '%' :: c :: d :: r2 =>
          if isHexDigit c && isHexDigit d then
            let byte2 := 16 * hexDigitVal c + hexDigitVal d
            if contByte byte2 then
              let v := (byte1 - 0xc0) * 0x40 + (byte2 - 0x80)
              if 0x80 ≤ v then do pure (Char.ofNat v :: (← decodeUriComp r2))
              else none
            else none
          else none
        | _ => none
      else if byte1 ≤ 0xef then
        match rest with
        | '%' :: c :: d :: '%' :: e :: f :: r3 =>
          if isHexDigit c && isHexDigit d && isHexDigit e && isHexDigit f then
            let byte2 := 16 * hexDigitVal c + hexDigitVal d
            let byte3 := 16 * hexDigitVal e + hexDigitVal f
            if contByte byte2 && contByte byte3 then
              let v := (byte1 - 0xe0) * 0x1000 + (byte2 - 0x80) * 0x40 + (byte3 - 0x80)
              if 0x800 ≤ v && !(0xd800 ≤ v && v ≤ 0xdfff) then do
                pure (Char.ofNat v :: (← decodeUriComp r3))
              else none
            else none
          else none
        | _ => none
      else if byte1 ≤ 0xf7 then
        match rest with
        | '%' :: c :: d :: '%' :: e :: f :: '%' :: g :: h :: r4 =>
          if isHexDigit c && isHexDigit d && isHexDigit e && isHexDigit f &&
             isHexDigit g && isHexDigit h then
            let byte2 := 16 * hexDigitVal c + hexDigitVal d
            let byte3 := 16 * hexDigitVal e + hexDigitVal f
            let byte4 := 16 * hexDigitVal g + hexDigitVal h
            if contByte byte2 && contByte byte3 && contByte byte4 then
              let v := (byte1 - 0xf0) * 0x40000 + (byte2 - 0x80) * 0x1000 +
                       (byte3 - 0x80) * 0x40 + (byte4 - 0x80)
              if 0x10000 ≤ v && v ≤ 0x10ffff then do
                pure (Char.ofNat v :: (← decodeUriComp r4))
              else none
            else none
          else none
        | _ => none
      else none  -- 0xf8 ≤ byte1: invalid leading byte
    else none  -- `%` not followed by two hexadecimal digits
  | '%' :: _ => none  -- fewer than two characters after `%`
  | c :: rest => do pure (c :: (← decodeUriComp rest))

/-- part_002 `unescape`:
`s.indexOf('%') === -1 ? s : decodeURIComponent(s)`. -/
def unescapeP2 (s : String) : Option String :=
  if s.data.contains '%' then (decodeUriComp s.data).map (fun l => ⟨l⟩) else some s

/-- One `;`-record of part_002 `parseAttributes` (index-scanning loop,
transcribed over the `;`-split segments): skip empty segments, require a
`=` with a nonempty value part, take the tag untrimmed, split the value on
`,`, skip empty fields (`commaIdx > valStart`), unescape each kept field
(this can throw), accumulate under the tag (the entry is created even when
every field is empty). -/
def parseAttrRecordP2 (attrs : Attrs) (seg : List Char) : Option Attrs :=
  if seg.isEmpty then some attrs
  else
    let tagPart := seg.takeWhile (· ≠ '=')
    if tagPart.length = seg.length then some attrs
    else
      let value := seg.drop (tagPart.length + 1)
      if value.isEmpty then some attrs
      else do
        let vals ← ((splitOnC ',' value).filter (fun v => !v.isEmpty)).mapM
          (fun v => unescapeP2 ⟨v⟩)
        pure (attrsPush attrs ⟨tagPart⟩ vals)

/-- part_002 `parseAttributes`. -/
def parseAttributesP2 (s : String) : Option Attrs :=
  if s.data.isEmpty || s = "." then some []
  else
    (splitOnC ';' (stripTrailNl s.data)).foldlM parseAttrRecordP2 []

/-- The same record step without unescaping
(part_002 `parseAttributesNoUnescape`). -/
def parseAttrRecordP2NU (attrs : Attrs) (seg : List Char) : Attrs :=
  if seg.isEmpty then attrs
  else
    let tagPart := seg.takeWhile (· ≠ '=')
    if tagPart.length = seg.length then attrs
    else
      let value := seg.drop (tagPart.length + 1)
      if value.isEmpty then attrs
      else
        let vals := ((splitOnC ',' value).filter (fun v => !v.isEmpty)).map
          (fun v => (⟨v⟩ : String))
        attrsPush attrs ⟨tagPart⟩ vals

/-- part_002 `parseAttributesNoUnescape`. -/
def parseAttributesP2NU (s : String) : Attrs :=
  if s.data.isEmpty || s = "." then []
  else
    (splitOnC ';' (stripTrailNl s.data)).foldl parseAttrRecordP2NU []

/-- part_002 `normUnescape`:
`s.length === 0 || s === '.' ? null : unescape(s)`. -/
def normUnescapeP2 (s : String) : Option (Option String) :=
  if s.data.isEmpty || s = "." then some none else (unescapeP2 s).map some

/-- part_002 `norm`. -/
def normP2 (s : String) : Option String :=
  if s.data.isEmpty || s = "." then none else some s

/-- The column reads and field construction of part_002 `parseFeature`
(the slow path), over the tab-split column list: the nine columns are read
with non-null assertions (a missing column is `undefined` and the first
use of it throws a `TypeError`), and `seq_id`/`source`/`type` and the
attribute values are unescaped via `decodeURIComponent` (which can throw a
`URIError`).  Either throw is modelled as `none`. -/
def parseFeatureFieldsP2 (f : List String) : Option FeatureLine := do
  let seq_id ← f[0]?
  let source ← f[1]?
  let type ← f[2]?
  let startStr ← f[3]?
  let endStr ← f[4]?
  let scoreStr ← f[5]?
  let strand ← f[6]?
  let phase ← f[7]?
  let attrString ← f[8]?
  let seq_id ← normUnescapeP2 seq_id
  let source ← normUnescapeP2 source
  let type ← normUnescapeP2 type
  let attributes ←
    if attrString.data.isEmpty || attrString = "." then pure none
    else (parseAttributesP2 attrString).map some
  pure
    { seq_id := seq_id
      source := source
      type := type
      start := if startStr.data.isEmpty || startStr = "." then none
               else some (jsToNumber startStr)
      end_ := if endStr.data.isEmpty || endStr = "." then none
              else some (jsToNumber endStr)
      score := if scoreStr.data.isEmpty || scoreStr = "." then none
               else some (jsToNumber scoreStr)
      strand := normP2 strand
      phase := normP2 phase
      attributes := attributes }

/-- part_002 `parseFeature` (the slow path). -/
def parseFeatureP2 (line : String) : Option FeatureLine :=
  parseFeatureFieldsP2 ((splitOnC '\t' line.data).map (fun l => (⟨l⟩ : String)))

/-- The column reads and field construction of part_002
`parseFeatureNoUnescape` (the fast path): identical to
`parseFeatureFieldsP2` except that no unescaping happens anywhere; the
only possible throw is the `TypeError` on a missing column. -/
def parseFeatureFieldsP2NU (f : List String) : Option FeatureLine := do
  let seq_id ← f[0]?
  let source ← f[1]?
  let type ← f[2]?
  let startStr ← f[3]?
  let endStr ← f[4]?
  let scoreStr ← f[5]?
  let strand ← f[6]?
  let phase ← f[7]?
  let attrString ← f[8]?
  pure
    { seq_id := normP2 seq_id
      source := normP2 source
      type := normP2 type
      start := if startStr.data.isEmpty || startStr = "." then none
               else some (jsToNumber startStr)
      end_ := if endStr.data.isEmpty || endStr = "." then none
              else some (jsToNumber endStr)
      score := if scoreStr.data.isEmpty || scoreStr = "." then none
               else some (jsToNumber scoreStr)
      strand := normP2 strand
      phase := normP2 phase
      attributes := if attrString.data.isEmpty || attrString = "." then none
                    else some (parseAttributesP2NU attrString) }

/-- part_002 `parseFeatureNoUnescape` (the fast path). -/
def parseFeatureP2NU (line : String) : Option FeatureLine :=
  parseFeatureFieldsP2NU ((splitOnC '\t' line.data).map (fun l => (⟨l⟩ : String)))

/-! ### The lookup-table fast util module (src/unnamed/part_003): `unescape` -/

/-- Membership of the two-character string `⟨a, b⟩` in part_003's
`HEX_LOOKUP` table: the table holds, for every byte, its two-digit
upper-case hex form and its lower-case form — so a mixed-case pair of hex
letters (e.g. `"Aa"`) is not in the table. -/
def hexPairInTable (a b : Char) : Bool :=
  let upperLetter := fun c => 'A' ≤ c && c ≤ 'F'
  let lowerLetter := fun c => 'a' ≤ c && c ≤ 'f'
  isHexDigit a && isHexDigit b &&
    !(upperLetter a && lowerLetter b) && !(lowerLetter a && upperLetter b)

/-- The scanning loop of part_003 `unescape`: at a `%` with at least two
following characters, a table hit emits the byte's character and a miss
copies the three characters verbatim, consuming three characters either
way; other characters are copied. -/
def unescapeP3Chars : List Char → List Char
  | [] => []
  | '%' :: a :: b :: rest =>
    if hexPairInTable a b then
      Char.ofNat (16 * hexDigitVal a + hexDigitVal b) :: unescapeP3Chars rest
    else '%' :: a :: b :: unescapeP3Chars rest
  | c :: rest => c :: unescapeP3Chars rest

/-- part_003 `unescape`: the identity when the string contains no `%`,
otherwise the scanning loop.  Total — malformed sequences are copied
through, never an error. -/
def unescapeP3 (s : String) : String :=
  if s.data.contains '%' then ⟨unescapeP3Chars s.data⟩ else s

/-- Decidable equality of `Except` results, used to evaluate run outcomes. -/
instance {ε α : Type} [DecidableEq ε] [DecidableEq α] : DecidableEq (Except ε α)
  | .error x, .error y =>
    if h : x = y then .isTrue (by rw [h]) else .isFalse (by simp [h])
  | .error _, .ok _ => .isFalse (by simp)
  | .ok _, .error _ => .isFalse (by simp)
  | .ok x, .ok y =>
    if h : x = y then .isTrue (by rw [h]) else .isFalse (by simp [h])

/-! ### Association-list and resolver no-op lemmas -/

/-- Lookup in an appended association list: first list wins. -/
theorem alookup_append {α : Type} (l1 l2 : List (String × α)) (key : String) :
    alookup (l1 ++ l2) key =
      match alookup l1 key with
      | some v => some v
      | none => alookup l2 key := by
  induction l1 with
  | nil => rfl
  | cons p t ih =>
    rcases p with ⟨k, v⟩
    by_cases h : k = key
    · simp [alookup, h]
    · simp [alookup, h, ih]

/-- Setting an absent key appends it. -/
theorem aset_eq_append_of_lookup_none {α : Type} {l : List (String × α)}
    {key : String} (h : alookup l key = none) (v : α) :
    aset l key v = l ++ [(key, v)] := by
  induction l with
  | nil => rfl
  | cons p t ih =>
    rcases p with ⟨k, w⟩
    by_cases hk : k = key
    · simp [alookup, hk] at h
    · simp only [alookup, hk, if_neg, if_false] at h
      simp [aset, hk, ih h]

/-- Rewriting the top-level queue to itself is the identity. -/
theorem setTopLevel_self {s : PState} {x : List Nat} (h : s.topLevel = x) :
    { s with topLevel := x } = s := by
  subst h; rfl

/-- With the default `Infinity` buffer size the limit enforcement does
nothing. -/
theorem enforceBufferSizeLimit_none {cfg : PCfg} (hb : cfg.bufferSize = none)
    (add : Nat) (s : PState) : enforceBufferSizeLimit cfg add s = s := by
  unfold enforceBufferSizeLimit
  rw [evictLoop.eq_def]
  rcases h : s.topLevel with _ | ⟨x, t⟩
  · simp only [h]
    exact setTopLevel_self h
  · simp only [h, hb]
    exact setTopLevel_self h

/-- Resolving references *to* an id nobody waits on does nothing. -/
theorem resolveReferencesTo_of_no_orphan {fi : Nat} {id : String} {s : PState}
    (h : alookup s.orphans id = none) : resolveReferencesTo fi id s = s := by
  unfold resolveReferencesTo
  rw [h]

/-- Resolving an empty target list does nothing. -/
theorem resolveRefsKind_nil (isParent : Bool) (fi : Nat) (ids : List String)
    (s : PState) : resolveRefsKind isParent fi ids [] s = s := rfl

/-- Resolving with no `Parent` and no `Derives_from` targets does nothing. -/
theorem resolveReferencesFrom_nil (fi : Nat) (ids : List String) (s : PState) :
    resolveReferencesFrom fi [] [] ids s = s := rfl


/-! ### Inputs and predicates used by the claim theorems -/

/-- The gene line of the spec's worked example. -/
def c4GeneLine : String := "ctg123\t.\tgene\t1000\t9000\t.\t+\t.\tID=gene1"

/-- The mRNA line of the spec's worked example. -/
def c4MrnaLine : String := "ctg123\t.\tmRNA\t1050\t9000\t.\t+\t.\tID=mRNA1;Parent=gene1"

/-- First line of a two-line feature `f1`, referencing `Parent=X`. -/
def c1ChildA : String := "ctg\t.\tmatch_part\t1\t2\t.\t+\t.\tID=f1;Parent=X"

/-- Second line of the two-line feature `f1`, repeating `Parent=X`. -/
def c1ChildB : String := "ctg\t.\tmatch_part\t3\t4\t.\t+\t.\tID=f1;Parent=X"

/-- The line defining the referenced feature `X`. -/
def c1Target : String := "ctg\t.\tmatch\t1\t4\t.\t+\t.\tID=X"

/-- A line whose `ID` attribute carries two values. -/
def c5Line : String := "ctg\t.\tgene\t1\t2\t.\t+\t.\tID=a,b"

/-- A `gene`-typed line with `ID=g1`. -/
def c3LineA : String := "ctg\t.\tgene\t1\t2\t.\t+\t.\tID=g1"

/-- An `mRNA`-typed line with the same `ID=g1`. -/
def c3LineB : String := "ctg\t.\tmRNA\t1\t2\t.\t+\t.\tID=g1"

/-- A feature line whose attribute column contains a `%` that is not part
of a percent-escape sequence. -/
def c6Line : String := "a\tb\tc\t1\t2\t.\t+\t.\tX=%zz"

/-- `bufferSize: 1` with the otherwise-default synchronous configuration. -/
def buf1Cfg : PCfg := { bufferSize := some 1, ddr := true, throwErrCb := true }

/-- Whether a character list contains a percent-escape sequence
(`%` followed by two hexadecimal digits) anywhere. -/
def hasPctEscapeSeq : List Char → Bool
  | '%' :: a :: b :: rest =>
    (isHexDigit a && isHexDigit b) || hasPctEscapeSeq (a :: b :: rest)
  | _ :: rest => hasPctEscapeSeq rest
  | [] => false

/-- The escape set named by the spec: exactly `;`, `=`, `%`, `,` plus
control characters and high-byte characters. -/
def claimedEscapeSet (c : Char) : Bool :=
  c = ';' || c = '=' || c = '%' || c = ',' ||
  c.toNat ≤ 0x1f || (0x7f ≤ c.toNat && c.toNat ≤ 0xff)

/-- A sequence of decoded lines is free of forward references: every
`Parent` or `Derives_from` target of a line occurs as an `ID` value of an
earlier line or of the line itself. -/
def noForwardRefs (ls : List FeatureLine) : Bool :=
  (List.range ls.length).all fun i =>
    (lineParents (lget ls i) ++ lineDerives { bufferSize := none, ddr := false, throwErrCb := true } (lget ls i)).all
      fun p => ((ls.take (i + 1)).map lineIds).flatten.contains p

/-! ### C5: what a multi-ID line actually does -/

/-- Registration of one fresh ID: a new single-line feature (the line at
arena index `ℓ`) is appended to the feature arena, enqueued top-level, and
indexed in the by-ID table under `id`. -/
def regOne (ℓ : Nat) (s : PState) (id : String) : PState :=
  { s with feats := s.feats ++ [[ℓ]]
           topLevel := s.topLevel ++ [s.feats.length]
           byId := s.byId ++ [(id, s.feats.length)] }

/-- The `ids.forEach` loop of `_bufferParsedLine`, on a reference-free
line whose ids are distinct and all fresh: it performs `regOne` per ID
value, left to right. -/
theorem fold_bufferIdStep_fresh {cfg : PCfg} (hb : cfg.bufferSize = none)
    (fl : FeatureLine) (ℓ : Nat) :
    ∀ (ids : List String) (s : PState) (a : Option Nat), ids.Nodup →
      (∀ id ∈ ids, alookup s.byId id = none) →
      (∀ id ∈ ids, alookup s.orphans id = none) →
      ∃ a2 : Option Nat,
        ids.foldlM (bufferIdStep cfg fl ℓ [] []) (s, a) =
          .ok (ids.foldl (regOne ℓ) s, a2) ∧ (ids ≠ [] → a2.isSome) := by
  intro ids
  induction ids with
  | nil =>
    intro s a _ _ _
    exact ⟨a, rfl, by simp⟩
  | cons id rest ih =>
    intro s a hnd hfresh horph
    have hfresh1 := hfresh id (List.mem_cons_self _ _)
    have horph1 := horph id (List.mem_cons_self _ _)
    have hstep : bufferIdStep cfg fl ℓ [] [] (s, a) id =
        .ok (regOne ℓ s id, some s.feats.length) := by
      unfold bufferIdStep
      simp only [hfresh1, enforceBufferSizeLimit_none hb,
        aset_eq_append_of_lookup_none hfresh1]
      simp [resolveReferencesTo, horph1, regOne]
      rw [aset_eq_append_of_lookup_none hfresh1]
      rfl
    rw [List.foldlM_cons, hstep]
    have hfresh2 : ∀ id2 ∈ rest, alookup (regOne ℓ s id).byId id2 = none := by
      intro id2 h2
      show alookup (s.byId ++ [(id, s.feats.length)]) id2 = none
      rw [alookup_append, hfresh id2 (List.mem_cons_of_mem _ h2)]
      have hne : ¬ id = id2 := by
        intro e
        subst e
        exact (List.nodup_cons.mp hnd).1 h2
      simp [alookup, hne]
    have horph2 : ∀ id2 ∈ rest, alookup (regOne ℓ s id).orphans id2 = none :=
      fun id2 h2 => horph id2 (List.mem_cons_of_mem _ h2)
    obtain ⟨a2, heq, hsome⟩ :=
      ih (regOne ℓ s id) (some s.feats.length) (List.nodup_cons.mp hnd).2 hfresh2 horph2
    refine ⟨a2, ?_, fun _ => ?_⟩
    · show rest.foldlM (bufferIdStep cfg fl ℓ [] []) (regOne ℓ s id, some s.feats.length) = _
      rw [heq, List.foldl_cons]
    · rcases hrest : rest with _ | ⟨r, rt⟩
      · subst hrest
        simp only [List.foldlM_nil] at heq
        injection heq with heq2
        injection heq2 with h1 h2
        subst h2
        simp
      · exact hsome (by simp [hrest])

/-- **C5 amended** — For a feature line whose `ID` attribute carries one
or more distinct values, none already under construction or awaited as an
orphan, and with no `Parent`/`Derives_from` (unlimited buffer): the
resolver registers one fresh single-line in-progress Feature **per ID
value** — each indexed under its own ID and each enqueued top-level — not
a single Feature under the first ID.  (Only the `parseRecords` variant of
part_000 uses `ids[0]` alone.) -/
theorem c5_every_id_registers_feature (cfg : PCfg) (fl : FeatureLine) (s : PState)
    (hb : cfg.bufferSize = none) (heof : s.eof = false)
    (hne : lineIds fl ≠ []) (hnd : (lineIds fl).Nodup)
    (hfresh : ∀ id ∈ lineIds fl, alookup s.byId id = none)
    (horph : ∀ id ∈ lineIds fl, alookup s.orphans id = none)
    (hpar : lineParents fl = []) (hder : lineDerives cfg fl = []) :
    addParsedFeatureLine cfg fl s =
      .ok ((lineIds fl).foldl (regOne s.lines.length)
        { s with lineNumber := s.lineNumber + 1
                 lines := s.lines ++ [fl]
                 childF := s.childF ++ [[]]
                 derivedF := s.derivedF ++ [[]] }) := by
  rcases s with ⟨seof, sln, slines, schildF, sderivedF, sfeats, stop, sbyId, scr, sorph, semit, sdir, scom, serr⟩
  simp only at heof hfresh horph
  subst heof
  unfold addParsedFeatureLine
  simp only [Bool.false_eq_true, if_false]
  unfold bufferParsedLine
  rw [hpar, hder]
  simp only [List.isEmpty_nil, Bool.and_true]
  rw [if_neg (show ¬ (lineIds fl).isEmpty = true by simpa using hne)]
  obtain ⟨a2, heq, hsome⟩ :=
    fold_bufferIdStep_fresh hb fl slines.length (lineIds fl)
      { eof := false, lineNumber := sln + 1, lines := slines ++ [fl]
        childF := schildF ++ [[]], derivedF := sderivedF ++ [[]]
        feats := sfeats, topLevel := stop, byId := sbyId, completedRefs := scr
        orphans := sorph, emittedF := semit, directives := sdir
        comments := scom, errors := serr } none hnd hfresh horph
  rw [heq]
  rcases a2 with _ | fi
  · have hx := hsome hne
    simp at hx
  · simp [bind, Except.bind, resolveReferencesFrom_nil, pure, Except.pure]

/-- Witness for the C5 amended theorem: the concrete `ID=a,b` line on the
initial state. -/
theorem c5_every_id_registers_feature_witness :
    addParsedFeatureLine syncCfg (parseFeatureU c5Line) initPState =
      .ok ((lineIds (parseFeatureU c5Line)).foldl (regOne initPState.lines.length)
        { initPState with lineNumber := initPState.lineNumber + 1
                          lines := initPState.lines ++ [parseFeatureU c5Line]
                          childF := initPState.childF ++ [[]]
                          derivedF := initPState.derivedF ++ [[]] }) :=
  c5_every_id_registers_feature syncCfg _ _ rfl rfl (by decide) (by decide) (by decide) (by decide)
    (by decide) (by decide)

/-! ### The claims -/

/-- **C4** — Parsing the gene line `ctg123 . gene 1000 9000 . + . ID=gene1`
and the mRNA line `ctg123 . mRNA 1050 9000 . + . ID=mRNA1;Parent=gene1`
yields, in both input orders, exactly one emitted top-level Feature: the
feature whose single line has `ID=gene1`, and that line's `child_features`
holds exactly the `mRNA1` feature (whose single line is the decoded mRNA
line). -/
theorem c4_gene_mrna_one_feature_both_orders :
    (∃ s, runStrings syncCfg [c4GeneLine, c4MrnaLine] = .ok s ∧
      s.emittedF = [0] ∧ lget s.feats 0 = [0] ∧
      lineIds (lget s.lines 0) = ["gene1"] ∧
      lget s.childF 0 = [1] ∧ lget s.feats 1 = [1] ∧
      lget s.lines 1 = parseFeatureU c4MrnaLine ∧
      lineIds (lget s.lines 1) = ["mRNA1"]) ∧
    (∃ s, runStrings syncCfg [c4MrnaLine, c4GeneLine] = .ok s ∧
      s.emittedF = [1] ∧ lget s.feats 1 = [1] ∧
      lineIds (lget s.lines 1) = ["gene1"] ∧
      lget s.childF 1 = [0] ∧ lget s.feats 0 = [0] ∧
      lget s.lines 0 = parseFeatureU c4MrnaLine ∧
      lineIds (lget s.lines 0) = ["mRNA1"]) :=
  ⟨⟨_, rfl, by decide, by decide, by decide, by decide, by decide, by decide, by decide⟩,
   ⟨_, rfl, by decide, by decide, by decide, by decide, by decide, by decide, by decide⟩⟩

/-- **C1 counterexample** — A feature `f1` whose two lines both carry
`Parent=X`, with `X` appearing *after* those lines: after the whole input
is resolved, `X`'s line holds the `f1` feature **twice** in its
`child_features`, refuting the claimed idempotent edge insertion in the
forward-reference case. -/
theorem c1_forward_duplicate_child_counterexample :
    ∃ s, runStrings syncCfg [c1ChildA, c1ChildB, c1Target] = .ok s ∧
      lget s.feats 0 = [0, 1] ∧
      lineIds (lget s.lines 0) = ["f1"] ∧ lineIds (lget s.lines 1) = ["f1"] ∧
      lineParents (lget s.lines 0) = ["X"] ∧ lineParents (lget s.lines 1) = ["X"] ∧
      lget s.feats 1 = [2] ∧ lineIds (lget s.lines 2) = ["X"] ∧
      lget s.childF 2 = [0, 0] ∧ (lget s.childF 2).count 0 = 2 :=
  ⟨_, rfl, by decide, by decide, by decide, by decide, by decide, by decide,
   by decide, by decide, by decide⟩

/-- **C3 counterexample** — Two feature lines with the same `ID=g1` and
different types (`gene` vs `mRNA`), separated by a `###` sync marker:
the parse succeeds with no error at all (both lines become separate
features and are emitted), refuting the claim for inputs in which the two
lines fall in different scopes. -/
theorem c3_sync_scope_counterexample :
    ∃ s, runStrings syncCfg [c3LineA, "###", c3LineB] = .ok s ∧
      lineIds (lget s.lines 0) = ["g1"] ∧ lineIds (lget s.lines 1) = ["g1"] ∧
      (lget s.lines 0).type = some "gene" ∧ (lget s.lines 1).type = some "mRNA" ∧
      s.errors = [] ∧ s.emittedF = [0, 1] :=
  ⟨_, rfl, by decide, by decide, by decide, by decide, by decide, by decide⟩

/-- **C5 counterexample** — A line with `ID=a,b`: after `addLine`, the
by-ID table holds **two** entries (`a ↦ feature 0`, `b ↦ feature 1`), i.e.
a fresh single-line in-progress feature per ID value, not one feature
under the first ID only; at `finish` the line is delivered twice. -/
theorem c5_multi_id_counterexample :
    (∃ s, feedStrings syncCfg [c5Line] = .ok s ∧
      lineIds (lget s.lines 0) = ["a", "b"] ∧
      s.byId = [("a", 0), ("b", 1)] ∧
      s.feats = [[0], [0]] ∧ s.topLevel = [0, 1]) ∧
    (∃ s, runStrings syncCfg [c5Line] = .ok s ∧ s.emittedF = [0, 1]) :=
  ⟨⟨_, rfl, by decide, by decide, by decide, by decide⟩,
   ⟨_, rfl, by decide⟩⟩

/-- The parser state after feeding the gene line with `bufferSize = 1`. -/
def c8s1 : PState :=
  { eof := false, lineNumber := 1
    lines := [{ seq_id := some "ctg123", source := none, type := some "gene",
                start := some (.val 1000), end_ := some (.val 9000), score := none,
                strand := some "+", phase := none,
                attributes := some [("ID", ["gene1"])] }]
    childF := [[]], derivedF := [[]], feats := [[0]], topLevel := [0]
    byId := [("gene1", 0)], completedRefs := [], orphans := []
    emittedF := [], directives := [], comments := [], errors := [] }

/-- The parser state after also feeding the mRNA line with `bufferSize = 1`:
the gene was evicted and emitted childless (`emittedF = [0]`, `childF 0 = []`),
and the mRNA now waits as an orphan on the already-evicted `gene1`. -/
def c8s2 : PState :=
  { eof := false, lineNumber := 2
    lines := [{ seq_id := some "ctg123", source := none, type := some "gene",
                start := some (.val 1000), end_ := some (.val 9000), score := none,
                strand := some "+", phase := none,
                attributes := some [("ID", ["gene1"])] },
              { seq_id := some "ctg123", source := none, type := some "mRNA",
                start := some (.val 1050), end_ := some (.val 9000), score := none,
                strand := some "+", phase := none,
                attributes := some [("ID", ["mRNA1"]), ("Parent", ["gene1"])] }]
    childF := [[], []], derivedF := [[], []], feats := [[0], [1]], topLevel := []
    byId := [("mRNA1", 1)], completedRefs := [], orphans := [("gene1", [1], [])]
    emittedF := [0], directives := [], comments := [], errors := [] }

/-- With `bufferSize = 1`, feeding the gene line yields `c8s1`. -/
theorem c8_feed_gene : addLine buf1Cfg c4GeneLine initPState = .ok c8s1 := by decide

/-- With `bufferSize = 1`, feeding the mRNA line evicts and emits the gene. -/
theorem c8_feed_mrna : addLine buf1Cfg c4MrnaLine c8s1 = .ok c8s2 := by decide

/-- The two-line feed under `bufferSize = 1` ends in state `c8s2`. -/
theorem c8_feed : feedStrings buf1Cfg [c4GeneLine, c4MrnaLine] = .ok c8s2 := by
  simp [feedStrings, List.foldlM, c8_feed_gene, c8_feed_mrna, bind, Except.bind,
    pure, Except.pure]

/-- **C8 counterexample** — The gene/mRNA input is a valid, orphan-free
GFF3 file with no forward reference at all (checked by `noForwardRefs`),
yet the emitted result depends on the buffer size: with the default
unlimited buffer one feature is delivered, with the mRNA child attached;
with `bufferSize = 1` the gene is evicted and delivered **without** the
child (`c8s2`), and `finish` then fails with an unresolved-reference
error naming `gene1`. -/
theorem c8_buffer_size_changes_output_counterexample :
    noForwardRefs [parseFeatureU c4GeneLine, parseFeatureU c4MrnaLine] = true ∧
    (∃ s, runStrings syncCfg [c4GeneLine, c4MrnaLine] = .ok s ∧
      s.emittedF = [0] ∧ lget s.childF 0 = [1]) ∧
    (feedStrings buf1Cfg [c4GeneLine, c4MrnaLine] = .ok c8s2 ∧
      c8s2.emittedF = [0] ∧ lget c8s2.childF 0 = [] ∧
      finishP c8s2 = .error (orphanErrMsg ["gene1"])) ∧
    runStrings buf1Cfg [c4GeneLine, c4MrnaLine] = .error (orphanErrMsg ["gene1"]) :=
  ⟨by decide,
   ⟨_, rfl, by decide, by decide⟩,
   ⟨c8_feed, by decide, by decide, by decide⟩,
   by simp only [runStrings, c8_feed, bind, Except.bind]; decide⟩

/-! ### Lemmas about the percent-escape scanners -/

/-- `unescapeChars` copies a non-`%` head character. -/
theorem unescapeChars_cons_of_ne {c : Char} (l : List Char) (h : ¬ c = '%') :
    unescapeChars (c :: l) = c :: unescapeChars l := by
  rw [unescapeChars.eq_def]
  split
  · simp_all
  · simp_all
  · rename_i x heq
    injection heq with h1 h2
    subst h1; subst h2; rfl

/-- `unescapeChars` copies the head when fewer than two characters follow. -/
theorem unescapeChars_cons_short {c : Char} {l : List Char} (h : l.length ≤ 1) :
    unescapeChars (c :: l) = c :: unescapeChars l := by
  rw [unescapeChars.eq_def]
  split
  · simp_all
  · rename_i a b rest heq
    injection heq with h1 h2
    subst h2
    simp at h
  · rename_i x heq
    injection heq with h1 h2
    subst h1; subst h2; rfl

/-- An escape sequence further in is still an escape sequence. -/
theorem hasPctEscapeSeq_cons_mono {c : Char} {l : List Char}
    (h : hasPctEscapeSeq l = true) : hasPctEscapeSeq (c :: l) = true := by
  rw [hasPctEscapeSeq.eq_def]
  split
  · rename_i a b rest heq
    injection heq with h1 h2
    subst h2
    simp_all
  · rename_i x r hside heq
    injection heq with h1 h2
    subst h2
    simp_all
  · simp_all

/-- Escape-sequence freedom passes to the tail. -/
theorem hasPctEscapeSeq_of_cons_false {c : Char} {l : List Char}
    (h : hasPctEscapeSeq (c :: l) = false) : hasPctEscapeSeq l = false := by
  by_contra hne
  rw [hasPctEscapeSeq_cons_mono (Bool.of_not_eq_false hne)] at h
  simp at h

/-- `hasPctEscapeSeq` skips a non-`%` head character. -/
theorem hasPctEscapeSeq_cons_of_ne {c : Char} (l : List Char) (h : ¬ c = '%') :
    hasPctEscapeSeq (c :: l) = hasPctEscapeSeq l := by
  rw [hasPctEscapeSeq.eq_def]
  split
  · simp_all
  · simp_all
  · simp_all

/-- On strings without any `%XX` sequence, the regex-based unescape scanner
is the identity: malformed `%` runs are copied, never an error. -/
theorem unescapeChars_id_of_no_seq :
    ∀ l : List Char, hasPctEscapeSeq l = false → unescapeChars l = l := by
  have H : ∀ (n : Nat) (l : List Char), l.length = n →
      hasPctEscapeSeq l = false → unescapeChars l = l := by
    intro n
    induction n using Nat.strong_induction_on with
    | _ n ih =>
      intro l hn h
      match l with
      | [] => rfl
      | [c] =>
        rw [unescapeChars_cons_short (by simp)]
        rfl
      | [c, d] =>
        rw [unescapeChars_cons_short (by simp),
            unescapeChars_cons_short (by simp)]
        rfl
      | c :: d :: e :: tail =>
        by_cases hc : c = '%'
        · subst hc
          rw [hasPctEscapeSeq.eq_def] at h
          simp only at h
          rw [Bool.or_eq_false_iff] at h
          rw [unescapeChars.eq_def]
          simp only [h.1, Bool.false_eq_true, if_false]
          rw [ih (d :: e :: tail).length (by simp [← hn]; try omega) (d :: e :: tail) rfl h.2]
        · rw [unescapeChars_cons_of_ne _ hc,
              ih (d :: e :: tail).length (by simp [← hn]; try omega) _ rfl
                (by rwa [hasPctEscapeSeq_cons_of_ne _ hc] at h)]
  exact fun l => H l.length l rfl

/-- `unescapeP3Chars` copies the head when fewer than two characters follow. -/
theorem unescapeP3Chars_cons_short {c : Char} {l : List Char} (h : l.length ≤ 1) :
    unescapeP3Chars (c :: l) = c :: unescapeP3Chars l := by
  rw [unescapeP3Chars.eq_def]
  split
  · simp_all
  · rename_i a b rest heq
    injection heq with h1 h2
    subst h2
    simp at h
  · rename_i x heq
    injection heq with h1 h2
    subst h1; subst h2; rfl

/-- `unescapeP3Chars` copies a non-`%` head character. -/
theorem unescapeP3Chars_cons_of_ne {c : Char} (l : List Char) (h : ¬ c = '%') :
    unescapeP3Chars (c :: l) = c :: unescapeP3Chars l := by
  rw [unescapeP3Chars.eq_def]
  split
  · simp_all
  · simp_all
  · rename_i x heq
    injection heq with h1 h2
    subst h1; subst h2; rfl

/-- On strings without any `%XX` sequence, the lookup-table unescape scanner
is the identity (a table hit needs two hex digits). -/
theorem unescapeP3Chars_id_of_no_seq :
    ∀ l : List Char, hasPctEscapeSeq l = false → unescapeP3Chars l = l := by
  have H : ∀ (n : Nat) (l : List Char), l.length = n →
      hasPctEscapeSeq l = false → unescapeP3Chars l = l := by
    intro n
    induction n using Nat.strong_induction_on with
    | _ n ih =>
      intro l hn h
      match l with
      | [] => rfl
      | [c] =>
        rw [unescapeP3Chars_cons_short (by simp)]
        rfl
      | [c, d] =>
        rw [unescapeP3Chars_cons_short (by simp),
            unescapeP3Chars_cons_short (by simp)]
        rfl
      | c :: d :: e :: tail =>
        by_cases hc : c = '%'
        · subst hc
          rw [hasPctEscapeSeq.eq_def] at h
          simp only at h
          rw [Bool.or_eq_false_iff] at h
          have htab : hexPairInTable d e = false := by
            unfold hexPairInTable
            rcases Bool.and_eq_false_iff.mp h.1 with h1 | h1 <;> simp [h1]
          rw [unescapeP3Chars.eq_def]
          simp only [htab, Bool.false_eq_true, if_false]
          have htail : hasPctEscapeSeq tail = false :=
            hasPctEscapeSeq_of_cons_false (hasPctEscapeSeq_of_cons_false h.2)
          rw [ih tail.length (by simp [← hn]; try omega) tail rfl htail]
        · rw [unescapeP3Chars_cons_of_ne _ hc,
              ih (d :: e :: tail).length (by simp [← hn]; try omega) _ rfl
                (by rwa [hasPctEscapeSeq_cons_of_ne _ hc] at h)]
  exact fun l => H l.length l rfl

/-! ### Membership lemmas for the split/strip helpers -/

/-- `split` never returns an empty piece list. -/
theorem splitOnC_ne_nil (sep : Char) (l : List Char) : splitOnC sep l ≠ [] := by
  cases l with
  | nil => simp [splitOnC]
  | cons c rest =>
    simp only [splitOnC]
    split
    · simp
    · split <;> simp

/-- Every character of a split piece comes from the split string. -/
theorem mem_of_mem_splitOnC {sep : Char} :
    ∀ {l a : List Char} {c : Char}, a ∈ splitOnC sep l → c ∈ a → c ∈ l := by
  intro l
  induction l with
  | nil =>
    intro a c ha hc
    simp [splitOnC] at ha
    subst ha
    simp at hc
  | cons x rest ih =>
    intro a c ha hc
    simp only [splitOnC] at ha
    by_cases hx : x = sep
    · rw [if_pos hx] at ha
      rcases List.mem_cons.mp ha with h | h
      · subst h; simp at hc
      · exact List.mem_cons_of_mem _ (ih h hc)
    · rw [if_neg hx] at ha
      rcases hr : splitOnC sep rest with _ | ⟨rh, rt⟩
      · exact absurd hr (splitOnC_ne_nil sep rest)
      · rw [hr] at ha
        rcases List.mem_cons.mp ha with h | h
        · subst h
          rcases List.mem_cons.mp hc with h | h
          · exact h ▸ List.mem_cons_self _ _
          · exact List.mem_cons_of_mem _ (ih (hr ▸ List.mem_cons_self rh rt) h)
        · exact List.mem_cons_of_mem _ (ih (hr ▸ List.mem_cons_of_mem rh h) hc)

/-- Stripping a trailing line ending removes no other characters. -/
theorem mem_of_mem_stripTrailNl {l : List Char} {c : Char}
    (h : c ∈ stripTrailNl l) : c ∈ l := by
  unfold stripTrailNl at h
  split at h
  · split at h
    · exact List.dropLast_subset _ (List.dropLast_subset _ h)
    · exact List.dropLast_subset _ h
  · exact h

/-! ### The fast/slow path agreement on `%`-free input (for C6) -/

/-- Characters-to-Bool bridge for the `includes('%')` guards. -/
theorem contains_false_of_not_mem {l : List Char} (h : '%' ∉ l) :
    l.contains '%' = false := by
  simpa using h

/-- part_002 `unescape` is the identity on `%`-free strings. -/
theorem unescapeP2_of_no_pct {v : List Char} (h : '%' ∉ v) :
    unescapeP2 ⟨v⟩ = some ⟨v⟩ := by
  unfold unescapeP2
  rw [show (⟨v⟩ : String).data = v from rfl, contains_false_of_not_mem h]
  rfl

/-- Unescaping every `%`-free value succeeds and changes nothing. -/
theorem mapM_unescapeP2_of_no_pct :
    ∀ (L : List (List Char)), (∀ v ∈ L, '%' ∉ v) →
      L.mapM (fun v => unescapeP2 ⟨v⟩) = some (L.map fun v => (⟨v⟩ : String)) := by
  intro L
  induction L with
  | nil => intro _; rfl
  | cons v t ih =>
    intro h
    rw [List.mapM_cons, unescapeP2_of_no_pct (h v (List.mem_cons_self _ _)),
        ih (fun w hw => h w (List.mem_cons_of_mem _ hw))]
    rfl

/-- On a `%`-free record, the slow attribute-record step equals the
fast one. -/
theorem parseAttrRecordP2_eq {attrs : Attrs} {seg : List Char} (h : '%' ∉ seg) :
    parseAttrRecordP2 attrs seg = some (parseAttrRecordP2NU attrs seg) := by
  simp only [parseAttrRecordP2, parseAttrRecordP2NU]
  split
  · rfl
  · split
    · rfl
    · split
      · rfl
      · rw [mapM_unescapeP2_of_no_pct]
        · rfl
        · intro v hv hvc
          exact h (List.mem_of_mem_drop
            (mem_of_mem_splitOnC (List.mem_of_mem_filter hv) hvc))

/-- Folding the slow record step over `%`-free segments equals folding
the fast one. -/
theorem foldlM_parseAttrRecordP2_eq :
    ∀ (segs : List (List Char)) (attrs : Attrs), (∀ seg ∈ segs, '%' ∉ seg) →
      segs.foldlM parseAttrRecordP2 attrs = some (segs.foldl parseAttrRecordP2NU attrs) := by
  intro segs
  induction segs with
  | nil => intro attrs _; rfl
  | cons seg t ih =>
    intro attrs h
    rw [List.foldlM_cons, parseAttrRecordP2_eq (h seg (List.mem_cons_self _ _))]
    show t.foldlM parseAttrRecordP2 (parseAttrRecordP2NU attrs seg) = _
    rw [ih _ (fun w hw => h w (List.mem_cons_of_mem _ hw)), List.foldl_cons]

/-- On a `%`-free attribute column, the slow parser equals the fast one. -/
theorem parseAttributesP2_eq {s : String} (h : '%' ∉ s.data) :
    parseAttributesP2 s = some (parseAttributesP2NU s) := by
  simp only [parseAttributesP2, parseAttributesP2NU]
  split
  · rfl
  · exact foldlM_parseAttrRecordP2_eq _ _
      (fun seg hseg hc =>
        h (mem_of_mem_stripTrailNl (mem_of_mem_splitOnC hseg hc)))

/-- On a `%`-free column, `normUnescape` equals `norm`. -/
theorem normUnescapeP2_eq {x : String} (h : '%' ∉ x.data) :
    normUnescapeP2 x = some (normP2 x) := by
  unfold normUnescapeP2 normP2
  split
  · rfl
  · show (unescapeP2 x).map some = _
    rcases x with ⟨xd⟩
    rw [unescapeP2_of_no_pct h]
    rfl

/-- Field-level fast/slow agreement: when no column contains `%`, the
slow decoder computes exactly the fast decoder's result (including
agreement on the `TypeError` for missing columns). -/
theorem parseFeatureFieldsP2_eq :
    ∀ (f : List String), (∀ x ∈ f, '%' ∉ x.data) →
      parseFeatureFieldsP2 f = parseFeatureFieldsP2NU f := by
  intro f hf
  match f with
  | [] => rfl
  | [x0] => rfl
  | [x0, x1] => rfl
  | [x0, x1, x2] => rfl
  | [x0, x1, x2, x3] => rfl
  | [x0, x1, x2, x3, x4] => rfl
  | [x0, x1, x2, x3, x4, x5] => rfl
  | [x0, x1, x2, x3, x4, x5, x6] => rfl
  | [x0, x1, x2, x3, x4, x5, x6, x7] => rfl
  | x0 :: x1 :: x2 :: x3 :: x4 :: x5 :: x6 :: x7 :: x8 :: rest =>
    simp only [parseFeatureFieldsP2, parseFeatureFieldsP2NU]
    simp only [List.getElem?_cons_zero, List.getElem?_cons_succ, bind, Option.bind]
    rw [normUnescapeP2_eq (hf x0 (by simp)), normUnescapeP2_eq (hf x1 (by simp)),
        normUnescapeP2_eq (hf x2 (by simp))]
    simp only [bind, Option.bind]
    split
    · rfl
    · rw [parseAttributesP2_eq (hf x8 (by simp))]
      rfl

/-- **C6 amended** — For every feature line string that contains no `%`
character at all (the condition the callers actually dispatch on,
`hasEscapes = line.includes('%')`), the fast-path decoder of part_002
produces a result identical to the slow-path decoder, including agreement
on the error for missing columns.  (For lines containing a `%` that does
not start an escape sequence the two differ: see the counterexample.) -/
theorem c6_fast_slow_agree_on_pct_free (line : String)
    (h : line.data.contains '%' = false) :
    parseFeatureP2 line = parseFeatureP2NU line := by
  unfold parseFeatureP2 parseFeatureP2NU
  apply parseFeatureFieldsP2_eq
  intro x hx hc
  rcases List.mem_map.mp hx with ⟨v, hv, rfl⟩
  have : ('%' : Char) ∈ line.data := mem_of_mem_splitOnC hv hc
  simp_all

/-- Witness for the C6 amended theorem at a concrete escape-free line. -/
theorem c6_fast_slow_agree_witness :
    ("a\tb\tc\t1\t2\t.\t+\t.\tX=y,z".data.contains '%' = false) ∧
    parseFeatureP2 "a\tb\tc\t1\t2\t.\t+\t.\tX=y,z" =
      parseFeatureP2NU "a\tb\tc\t1\t2\t.\t+\t.\tX=y,z" :=
  ⟨by decide, c6_fast_slow_agree_on_pct_free _ (by decide)⟩

/-- **C10 amended** — The regex-based `unescape` (src/src/util.ts) and the
lookup-table `unescape` (part_003) return normally on every input; on a
string without any well-formed `%XX` sequence they return it unchanged
(malformed `%` runs do not abort decoding).  The `decodeURIComponent`-based
`unescape` of part_002 returns normally whenever the string contains no
`%` at all, but throws on a `%` not followed by two hexadecimal digits
(see the counterexample). -/
theorem c10_total_unescape_variants :
    (∀ s : String, hasPctEscapeSeq s.data = false → unescapeU s = s ∧ unescapeP3 s = s) ∧
    (∀ s : String, s.data.contains '%' = false → unescapeP2 s = some s) := by
  constructor
  · intro s h
    constructor
    · unfold unescapeU
      split
      · rw [unescapeChars_id_of_no_seq _ h]
      · rfl
    · unfold unescapeP3
      split
      · rw [unescapeP3Chars_id_of_no_seq _ h]
      · rfl
  · intro s h
    unfold unescapeP2
    rw [h]
    rfl

/-- Witness for the C10 amended theorem at concrete inputs. -/
theorem c10_total_unescape_variants_witness :
    (unescapeU "%zz" = "%zz" ∧ unescapeP3 "%zz" = "%zz") ∧
    unescapeP2 "abc" = some "abc" :=
  ⟨c10_total_unescape_variants.1 "%zz" (by decide),
   c10_total_unescape_variants.2 "abc" (by decide)⟩

/-- **C6 counterexample** — The line `a b c 1 2 . + . X=%zz` contains no
percent-escape sequence (`%` is not followed by two hex digits), yet the
slow path throws a `URIError` through `decodeURIComponent` while the fast
path succeeds, so the two decoders are not identical on escape-free
input. -/
theorem c6_slow_path_throws_counterexample :
    hasPctEscapeSeq c6Line.data = false ∧
    parseFeatureP2 c6Line = none ∧
    (parseFeatureP2NU c6Line).isSome = true ∧
    parseFeatureP2 c6Line ≠ parseFeatureP2NU c6Line :=
  ⟨by decide, by decide, by decide, by decide⟩

set_option maxRecDepth 4096 in
/-- Encoding a byte as two upper-case hex digits and decoding them
recovers the byte. -/
theorem hexRoundTrip :
    ∀ n : Fin 256,
      isHexDigit (hexDigitUpper (n.1 / 16 % 16)) = true ∧
      isHexDigit (hexDigitUpper (n.1 % 16)) = true ∧
      16 * hexDigitVal (hexDigitUpper (n.1 / 16 % 16)) +
        hexDigitVal (hexDigitUpper (n.1 % 16)) = n.1 := by decide

/-- Every character the attribute escape regex matches has code `< 256`. -/
theorem attrEscapeChar_lt_256 {c : Char} (h : attrEscapeChar c = true) :
    c.toNat < 256 := by
  simp only [attrEscapeChar, Bool.or_eq_true, Bool.and_eq_true,
    decide_eq_true_eq] at h
  rcases h with ((((((((rfl | rfl) | rfl) | rfl) | rfl) | rfl) | rfl) | rfl) | h) | ⟨h1, h2⟩ <;>
    first | decide | omega

/-- The unescape scanner undoes attribute escaping, character list level. -/
theorem unescapeChars_escapeChars (l : List Char) :
    unescapeChars (escapeCharsWith attrEscapeChar l) = l := by
  induction l with
  | nil => rfl
  | cons c rest ih =>
    by_cases hc : attrEscapeChar c = true
    · have hlt := attrEscapeChar_lt_256 hc
      obtain ⟨h1, h2, h3⟩ := hexRoundTrip ⟨c.toNat, hlt⟩
      simp only [escapeCharsWith, toHexUpper2, hc, if_true, List.cons_append,
        List.nil_append]
      rw [unescapeChars.eq_def]
      simp only [h1, h2, Bool.and_self, if_true]
      rw [h3, Char.ofNat_toNat, ih]
    · have hcp : ¬ c = '%' := fun e => hc (by subst e; decide)
      have hc2 : attrEscapeChar c = false := by simpa using hc
      simp only [escapeCharsWith, hc2, Bool.false_eq_true, if_false,
        List.singleton_append]
      rw [unescapeChars_cons_of_ne _ hcp, ih]

/-- If escaping introduced no `%`, nothing was escaped at all. -/
theorem escapeChars_eq_self_of_no_pct {p : Char → Bool} :
    ∀ l : List Char, '%' ∉ escapeCharsWith p l → escapeCharsWith p l = l := by
  intro l
  induction l with
  | nil => intro _; rfl
  | cons c rest ih =>
    intro h
    by_cases hc : p c = true
    · exfalso
      apply h
      simp [escapeCharsWith, hc]
    · have hc2 : p c = false := by simpa using hc
      simp only [escapeCharsWith, hc2, Bool.false_eq_true, if_false,
        List.singleton_append] at h ⊢
      rw [ih (fun hm => h (List.mem_cons_of_mem _ hm))]

/-- **C7 amended** — `unescape(escape(x)) = x` holds for every attribute
value string `x`; and `escape` percent-encodes exactly the characters
`;`, `=`, `%`, `,` **and `&`** plus control characters (`U+0000`-`U+001F`)
and high-byte characters (`U+007F`-`U+00FF`) — the claim's list must be
extended by `&`. -/
theorem c7_roundtrip_and_exact_escape_set :
    (∀ s : String, unescapeU (escapeU s) = s) ∧
    (∀ c : Char, attrEscapeChar c = (claimedEscapeSet c || c = '&')) := by
  constructor
  · intro s
    unfold unescapeU escapeU
    split
    · rw [unescapeChars_escapeChars]
    · rename_i h
      rw [escapeChars_eq_self_of_no_pct s.data (by simpa using h)]
  · intro c
    rw [Bool.eq_iff_iff]
    simp only [claimedEscapeSet, attrEscapeChar, Bool.or_eq_true, Bool.and_eq_true,
      decide_eq_true_eq]
    constructor
    · intro h
      rcases h with ((((((((rfl | rfl) | rfl) | rfl) | rfl) | rfl) | rfl) | rfl) | h) | ⟨h1, h2⟩ <;>
        first | decide | tauto
    · intro h
      rcases h with (((((rfl | rfl) | rfl) | rfl) | h) | ⟨h1, h2⟩) | rfl <;>
        first | decide | tauto

/-- **C7 counterexample** — `escape` percent-encodes `&` (to `"%26"`),
but `&` is none of `;`, `=`, `%`, `,`, a control character, or a high-byte
character — so the escaped set is not *exactly* the claimed one. -/
theorem c7_ampersand_escaped_counterexample :
    escapeU "&" = "%26" ∧ claimedEscapeSet '&' = false :=
  ⟨by decide, by decide⟩

/-- **C10 counterexample** — The `decodeURIComponent`-based `unescape` of
the fast util module does *not* return normally on every input: on
`"%zz"` (a `%` not followed by two hexadecimal digits) it throws a
`URIError`, modelled as `none`. -/
theorem c10_unescape_throws_counterexample :
    unescapeP2 "%zz" = none ∧ unescapeP2 "%" = none :=
  ⟨by decide, by decide⟩


/-! ### Association-list, arena and list-index lemmas used by the resolver
proofs -/

theorem lget_append_lt {α : Type} [Inhabited α] {l l2 : List α} {i : Nat}
    (h : i < l.length) : lget (l ++ l2) i = lget l i := by
  unfold lget
  rw [List.getD_eq_getElem?_getD, List.getD_eq_getElem?_getD,
      List.getElem?_append, if_pos h]

theorem lget_append_len {α : Type} [Inhabited α] (l : List α) (x : α) :
    lget (l ++ [x]) l.length = x := by
  unfold lget
  rw [List.getD_eq_getElem?_getD, List.getElem?_append_right (Nat.le_refl _)]
  simp

theorem getLastD_append_single {α : Type} (l : List α) (x d : α) :
    (l ++ [x]).getLastD d = x :=
  List.getLastD_concat _ _ _

theorem getLastD_mem {α : Type} : ∀ {l : List α}, l ≠ [] → ∀ d, l.getLastD d ∈ l := by
  intro l
  induction l with
  | nil => intro h; exact absurd rfl h
  | cons a t ih =>
    intro _ d
    rw [List.getLastD_cons]
    rcases ht : t with _ | ⟨b, t2⟩
    · simp
    · rw [← ht]
      exact List.mem_cons_of_mem _ (ih (by simp [ht]) a)

-- L0: preservation lemmas

def SameCore (s0 s1 : PState) : Prop :=
  s1.lines = s0.lines ∧ s1.byId = s0.byId ∧ s1.feats = s0.feats ∧
  s1.errors = s0.errors ∧ s1.eof = s0.eof ∧ s1.lineNumber = s0.lineNumber ∧
  s1.topLevel = s0.topLevel

theorem sameCore_refl (s : PState) : SameCore s s :=
  ⟨rfl, rfl, rfl, rfl, rfl, rfl, rfl⟩

theorem sameCore_trans {a b c : PState} (h1 : SameCore a b) (h2 : SameCore b c) :
    SameCore a c := by
  obtain ⟨e1, e2, e3, e4, e5, e6, e7⟩ := h2
  obtain ⟨f1, f2, f3, f4, f5, f6, f7⟩ := h1
  exact ⟨e1.trans f1, e2.trans f2, e3.trans f3, e4.trans f4, e5.trans f5,
    e6.trans f6, e7.trans f7⟩

theorem foldl_refUpdate_sameCore (ps ds : List Nat) :
    ∀ (L : List Nat) (s0 : PState),
      SameCore s0 (L.foldl (fun s ℓ =>
        { s with childF := s.childF.set ℓ (lget s.childF ℓ ++ ps)
                 derivedF := s.derivedF.set ℓ (lget s.derivedF ℓ ++ ds) }) s0) := by
  intro L
  induction L with
  | nil => intro s0; exact sameCore_refl s0
  | cons ℓ t ih =>
    intro s0
    rw [List.foldl_cons]
    exact sameCore_trans (sameCore_refl _) (ih _)

theorem resolveReferencesTo_sameCore (fi : Nat) (id : String) (s : PState) :
    SameCore s (resolveReferencesTo fi id s) := by
  unfold resolveReferencesTo
  split
  · exact sameCore_refl s
  · rename_i ps ds heq
    have h := foldl_refUpdate_sameCore ps ds (lget s.feats fi) s
    obtain ⟨e1, e2, e3, e4, e5, e6, e7⟩ := h
    exact ⟨e1, e2, e3, e4, e5, e6, e7⟩

theorem foldl_childT_sameCore (fi : Nat) :
    ∀ (L : List Nat) (s0 : PState),
      SameCore s0 (L.foldl (fun s ℓ =>
        { s with childF := s.childF.set ℓ (lget s.childF ℓ ++ [fi]) }) s0) := by
  intro L
  induction L with
  | nil => intro s0; exact sameCore_refl s0
  | cons ℓ t ih =>
    intro s0
    rw [List.foldl_cons]
    exact sameCore_trans (sameCore_refl _) (ih _)

theorem foldl_childD_sameCore (fi : Nat) :
    ∀ (L : List Nat) (s0 : PState),
      SameCore s0 (L.foldl (fun s ℓ =>
        { s with derivedF := s.derivedF.set ℓ (lget s.derivedF ℓ ++ [fi]) }) s0) := by
  intro L
  induction L with
  | nil => intro s0; exact sameCore_refl s0
  | cons ℓ t ih =>
    intro s0
    rw [List.foldl_cons]
    exact sameCore_trans (sameCore_refl _) (ih _)

theorem resolveRefsKind_sameCoreExceptCR (isP : Bool) (fi : Nat)
    (ids : List String) :
    ∀ (targets : List String) (s : PState),
      SameCore s (resolveRefsKind isP fi ids targets s) := by
  intro targets
  induction targets with
  | nil => intro s; exact sameCore_refl s
  | cons toId t ih =>
    intro s
    unfold resolveRefsKind
    rw [List.foldl_cons]
    refine sameCore_trans ?_ (show SameCore _ (resolveRefsKind isP fi ids t _) from ih _)
    split
    · rename_i other hother
      split
      · dsimp only
        split
        · exact ⟨rfl, rfl, rfl, rfl, rfl, rfl, rfl⟩
        · exact sameCore_trans
            (show SameCore s
              { s with completedRefs :=
                  (markCompletedRefs ids ("Parent," ++ toId) s.completedRefs).2 } from
              ⟨rfl, rfl, rfl, rfl, rfl, rfl, rfl⟩)
            (foldl_childT_sameCore fi _ _)
      · dsimp only
        split
        · exact ⟨rfl, rfl, rfl, rfl, rfl, rfl, rfl⟩
        · exact sameCore_trans
            (show SameCore s
              { s with completedRefs :=
                  (markCompletedRefs ids ("Derives_from," ++ toId) s.completedRefs).2 } from
              ⟨rfl, rfl, rfl, rfl, rfl, rfl, rfl⟩)
            (foldl_childD_sameCore fi _ _)
    · split
      exact ⟨rfl, rfl, rfl, rfl, rfl, rfl, rfl⟩

theorem lget_set_self {α : Type} [Inhabited α] {l : List α} {i : Nat}
    (h : i < l.length) (x : α) : lget (l.set i x) i = x := by
  unfold lget
  rw [List.getD_eq_getElem?_getD, List.getElem?_set_self (by simpa using h)]
  rfl

theorem lget_set_ne {α : Type} [Inhabited α] (l : List α) {i j : Nat}
    (h : ¬ j = i) (x : α) : lget (l.set i x) j = lget l j := by
  unfold lget
  rw [List.getD_eq_getElem?_getD, List.getD_eq_getElem?_getD,
      List.getElem?_set_ne (fun e => h e.symm)]

theorem alookup_aset_self {α : Type} (l : List (String × α)) (k : String) (v : α) :
    alookup (aset l k v) k = some v := by
  induction l with
  | nil => simp [aset, alookup]
  | cons p t ih =>
    rcases p with ⟨k1, w⟩
    by_cases h : k1 = k
    · simp [aset, h, alookup]
    · simp [aset, h, alookup, ih]

theorem alookup_aset_ne {α : Type} (l : List (String × α)) {k t : String}
    (h : ¬ t = k) (v : α) : alookup (aset l k v) t = alookup l t := by
  have hne : ¬ k = t := fun e => h e.symm
  induction l with
  | nil => simp [aset, alookup, hne]
  | cons p tl ih =>
    rcases p with ⟨k1, w⟩
    by_cases h1 : k1 = k
    · subst h1
      simp [aset, alookup, hne]
    · by_cases h2 : k1 = t
      · simp [aset, alookup, h1, h2, h]
      · simp [aset, alookup, h1, h2, ih]

theorem alookup_aremove_ne {α : Type} (l : List (String × α)) {k t : String}
    (h : ¬ t = k) : alookup (aremove l k) t = alookup l t := by
  have hne : ¬ k = t := fun e => h e.symm
  induction l with
  | nil => rfl
  | cons p tl ih =>
    rcases p with ⟨k1, w⟩
    by_cases h1 : k1 = k
    · subst h1
      simp [aremove, alookup, hne]
    · by_cases h2 : k1 = t
      · simp [aremove, alookup, h1, h2, h]
      · simp [aremove, alookup, h1, h2, ih]

theorem aremove_sublist {α : Type} (l : List (String × α)) (k : String) :
    (aremove l k).Sublist l := by
  induction l with
  | nil => exact List.Sublist.refl _
  | cons p tl ih =>
    rcases p with ⟨k1, w⟩
    by_cases h1 : k1 = k
    · simp only [aremove, h1, if_pos]
      exact List.sublist_cons_of_sublist _ (List.Sublist.refl _)
    · simp only [aremove, h1, if_neg, ite_false]
      exact List.Sublist.cons₂ _ ih

theorem alookup_aremove_self {α : Type} {l : List (String × α)} {k : String}
    (h : (l.map (·.1)).Nodup) : alookup (aremove l k) k = none := by
  induction l with
  | nil => rfl
  | cons p tl ih =>
    rcases p with ⟨k1, w⟩
    simp only [List.map_cons, List.nodup_cons] at h
    by_cases h1 : k1 = k
    · subst h1
      simp only [aremove, if_pos rfl]
      rcases ha : alookup tl k1 with _ | v
      · exact ha
      · exfalso
        apply h.1
        clear ih h
        induction tl with
        | nil => simp [alookup] at ha
        | cons q tq ihq =>
          rcases q with ⟨k2, w2⟩
          by_cases h2 : k2 = k1
          · subst h2; simp
          · simp only [alookup, h2, if_neg, ite_false] at ha
            simp [ihq ha]
    · simp only [aremove, h1, ite_false, alookup, h1]
      exact ih h.2

theorem map_fst_aset_of_lookup_some {α : Type} {l : List (String × α)} {k : String}
    {w : α} (h : alookup l k = some w) (v : α) :
    (aset l k v).map (·.1) = l.map (·.1) := by
  induction l with
  | nil => simp [alookup] at h
  | cons p tl ih =>
    rcases p with ⟨k1, w1⟩
    by_cases h1 : k1 = k
    · simp [aset, h1]
    · simp only [alookup, h1, ite_false] at h
      simp [aset, h1, ih h]

theorem mem_map_fst_iff_alookup_isSome {α : Type} (l : List (String × α)) (t : String) :
    t ∈ l.map (·.1) ↔ (alookup l t).isSome = true := by
  induction l with
  | nil => simp [alookup]
  | cons p tl ih =>
    rcases p with ⟨k1, w⟩
    by_cases h1 : k1 = t
    · subst h1; simp [alookup]
    · have hne : ¬ t = k1 := fun e => h1 e.symm
      simp [alookup, h1, ih, hne]

theorem exists_lget_append {α : Type} [Inhabited α] (l : List α) (x : α)
    (P : α → Prop) :
    (∃ k, k < (l ++ [x]).length ∧ P (lget (l ++ [x]) k)) ↔
      (∃ k, k < l.length ∧ P (lget l k)) ∨ P x := by
  constructor
  · rintro ⟨k, hk, hP⟩
    by_cases h : k < l.length
    · exact Or.inl ⟨k, h, by rwa [lget_append_lt h] at hP⟩
    · right
      have : k = l.length := by simp at hk; omega
      subst this
      rwa [lget_append_len] at hP
  · rintro (⟨k, hk, hP⟩ | hP)
    · exact ⟨k, by simp; omega, by rwa [lget_append_lt hk]⟩
    · exact ⟨l.length, by simp, by rwa [lget_append_len]⟩

theorem forall_lget_append {α : Type} [Inhabited α] (l : List α) (x : α)
    (P : α → Prop) :
    (∀ k, k < (l ++ [x]).length → P (lget (l ++ [x]) k)) ↔
      (∀ k, k < l.length → P (lget l k)) ∧ P x := by
  constructor
  · intro h
    refine ⟨fun k hk => ?_, ?_⟩
    · have := h k (by simp; omega)
      rwa [lget_append_lt hk] at this
    · have := h l.length (by simp)
      rwa [lget_append_len] at this
  · rintro ⟨h1, h2⟩ k hk
    by_cases h : k < l.length
    · rw [lget_append_lt h]; exact h1 k h
    · have : k = l.length := by simp at hk; omega
      subst this
      rwa [lget_append_len]

theorem foldl_refUpdate_orphans (ps ds : List Nat) :
    ∀ (L : List Nat) (s0 : PState),
      (L.foldl (fun s ℓ =>
        { s with childF := s.childF.set ℓ (lget s.childF ℓ ++ ps)
                 derivedF := s.derivedF.set ℓ (lget s.derivedF ℓ ++ ds) }) s0).orphans
        = s0.orphans := by
  intro L
  induction L with
  | nil => intro s0; rfl
  | cons ℓ t ih =>
    intro s0
    rw [List.foldl_cons, ih]

theorem foldl_childT_orphans (fi : Nat) :
    ∀ (L : List Nat) (s0 : PState),
      (L.foldl (fun s ℓ =>
        { s with childF := s.childF.set ℓ (lget s.childF ℓ ++ [fi]) }) s0).orphans
        = s0.orphans := by
  intro L
  induction L with
  | nil => intro s0; rfl
  | cons ℓ t ih =>
    intro s0
    rw [List.foldl_cons, ih]

theorem foldl_childD_orphans (fi : Nat) :
    ∀ (L : List Nat) (s0 : PState),
      (L.foldl (fun s ℓ =>
        { s with derivedF := s.derivedF.set ℓ (lget s.derivedF ℓ ++ [fi]) }) s0).orphans
        = s0.orphans := by
  intro L
  induction L with
  | nil => intro s0; rfl
  | cons ℓ t ih =>
    intro s0
    rw [List.foldl_cons, ih]

theorem resolveReferencesTo_orphans (fi : Nat) (id : String) (s : PState)
    (hnd : (s.orphans.map (·.1)).Nodup) (t : String) :
    alookup (resolveReferencesTo fi id s).orphans t =
      if t = id then none else alookup s.orphans t := by
  unfold resolveReferencesTo
  split
  · rename_i h
    by_cases ht : t = id
    · subst ht; rw [if_pos rfl, h]
    · rw [if_neg ht]
  · rename_i ps ds heq
    show alookup (aremove (List.foldl _ s (lget s.feats fi)).orphans id) t = _
    rw [foldl_refUpdate_orphans]
    by_cases ht : t = id
    · subst ht; rw [if_pos rfl, alookup_aremove_self hnd]
    · rw [if_neg ht, alookup_aremove_ne _ ht]

theorem resolveReferencesTo_orphans_nodup (fi : Nat) (id : String) (s : PState)
    (hnd : (s.orphans.map (·.1)).Nodup) :
    ((resolveReferencesTo fi id s).orphans.map (·.1)).Nodup := by
  unfold resolveReferencesTo
  split
  · exact hnd
  · rename_i ps ds heq
    show ((aremove (List.foldl _ s (lget s.feats fi)).orphans id).map (·.1)).Nodup
    rw [foldl_refUpdate_orphans]
    exact ((aremove_sublist _ _).map _).nodup hnd

theorem resolveRefsKind_cons (isP : Bool) (fi : Nat) (ids : List String)
    (toId : String) (rest : List String) (s : PState) :
    resolveRefsKind isP fi ids (toId :: rest) s =
      resolveRefsKind isP fi ids rest (resolveRefsKind isP fi ids [toId] s) := rfl

theorem resolveRefsKind_single_orphans (isP : Bool) (fi : Nat) (ids : List String)
    (toId : String) (s : PState) (t : String) :
    (alookup (resolveRefsKind isP fi ids [toId] s).orphans t).isSome = true ↔
      ((alookup s.orphans t).isSome = true ∨
        (t = toId ∧ alookup s.byId toId = none)) := by
  unfold resolveRefsKind
  simp only [List.foldl_cons, List.foldl_nil]
  split
  · rename_i other hother
    split
    · split
      · simp [hother]
      · simp [foldl_childT_orphans, hother]
    · split
      · simp [hother]
      · simp [foldl_childD_orphans, hother]
  · rename_i hnone
    split
    · by_cases ht : t = toId
      · subst ht
        simp [alookup_aset_self, hnone]
      · simp [alookup_aset_ne _ ht, ht]
    · by_cases ht : t = toId
      · subst ht
        simp [alookup_aset_self, hnone]
      · simp [alookup_aset_ne _ ht, ht]

theorem resolveRefsKind_single_orphans_nodup (isP : Bool) (fi : Nat)
    (ids : List String) (toId : String) (s : PState)
    (hnd : (s.orphans.map (·.1)).Nodup) :
    ((resolveRefsKind isP fi ids [toId] s).orphans.map (·.1)).Nodup := by
  unfold resolveRefsKind
  simp only [List.foldl_cons, List.foldl_nil]
  have haset : ∀ e, ((aset s.orphans toId e).map (·.1)).Nodup := by
    intro e
    rcases ho : alookup s.orphans toId with _ | w
    · rw [aset_eq_append_of_lookup_none ho]
      have hmem : toId ∉ s.orphans.map (·.1) := by
        rw [mem_map_fst_iff_alookup_isSome, ho]
        simp
      simp only [List.map_append, List.map_cons, List.map_nil]
      rw [List.nodup_append]
      exact ⟨hnd, List.nodup_singleton _, by
        intro a ha hb
        simp at hb
        subst hb
        exact hmem ha⟩
    · rw [map_fst_aset_of_lookup_some ho]
      exact hnd
  split
  · rename_i other hother
    split
    · split
      · exact hnd
      · simpa [foldl_childT_orphans] using hnd
    · split
      · exact hnd
      · simpa [foldl_childD_orphans] using hnd
  · rename_i hnone
    split
    · exact haset _
    · exact haset _

theorem resolveRefsKind_orphans (isP : Bool) (fi : Nat) (ids : List String) :
    ∀ (targets : List String) (s : PState) (t : String),
      (alookup (resolveRefsKind isP fi ids targets s).orphans t).isSome = true ↔
        ((alookup s.orphans t).isSome = true ∨
          (t ∈ targets ∧ alookup s.byId t = none)) := by
  intro targets
  induction targets with
  | nil =>
    intro s t
    simp [resolveRefsKind_nil]
  | cons toId rest ih =>
    intro s t
    rw [resolveRefsKind_cons]
    have hby : (resolveRefsKind isP fi ids [toId] s).byId = s.byId :=
      (resolveRefsKind_sameCoreExceptCR isP fi ids [toId] s).2.1
    rw [ih, hby, resolveRefsKind_single_orphans]
    constructor
    · rintro ((h | ⟨rfl, h⟩) | ⟨hm, h⟩)
      · exact Or.inl h
      · exact Or.inr ⟨List.mem_cons_self _ _, h⟩
      · exact Or.inr ⟨List.mem_cons_of_mem _ hm, h⟩
    · rintro (h | ⟨hm, h⟩)
      · exact Or.inl (Or.inl h)
      · rcases List.mem_cons.mp hm with rfl | hm2
        · exact Or.inl (Or.inr ⟨rfl, h⟩)
        · exact Or.inr ⟨hm2, h⟩

theorem resolveRefsKind_orphans_nodup (isP : Bool) (fi : Nat) (ids : List String) :
    ∀ (targets : List String) (s : PState),
      (s.orphans.map (·.1)).Nodup →
      ((resolveRefsKind isP fi ids targets s).orphans.map (·.1)).Nodup := by
  intro targets
  induction targets with
  | nil =>
    intro s h
    simpa [resolveRefsKind_nil] using h
  | cons toId rest ih =>
    intro s h
    rw [resolveRefsKind_cons]
    exact ih _ (resolveRefsKind_single_orphans_nodup isP fi ids toId s h)

theorem resolveReferencesFrom_sameCore (fi : Nat) (parents derives ids : List String)
    (s : PState) : SameCore s (resolveReferencesFrom fi parents derives ids s) := by
  unfold resolveReferencesFrom
  exact sameCore_trans (resolveRefsKind_sameCoreExceptCR true fi ids parents s)
    (resolveRefsKind_sameCoreExceptCR false fi ids derives _)

theorem resolveReferencesFrom_orphans (fi : Nat) (parents derives ids : List String)
    (s : PState) (t : String) :
    (alookup (resolveReferencesFrom fi parents derives ids s).orphans t).isSome = true ↔
      ((alookup s.orphans t).isSome = true ∨
        ((t ∈ parents ∨ t ∈ derives) ∧ alookup s.byId t = none)) := by
  unfold resolveReferencesFrom
  have hby : (resolveRefsKind true fi ids parents s).byId = s.byId :=
    (resolveRefsKind_sameCoreExceptCR true fi ids parents s).2.1
  rw [resolveRefsKind_orphans, hby, resolveRefsKind_orphans]
  tauto

theorem resolveReferencesFrom_orphans_nodup (fi : Nat)
    (parents derives ids : List String) (s : PState)
    (hnd : (s.orphans.map (·.1)).Nodup) :
    ((resolveReferencesFrom fi parents derives ids s).orphans.map (·.1)).Nodup := by
  unfold resolveReferencesFrom
  exact resolveRefsKind_orphans_nodup false fi ids derives _
    (resolveRefsKind_orphans_nodup true fi ids parents s hnd)

def refsOf (cfg : PCfg) (fl : FeatureLine) : List String :=
  lineParents fl ++ lineDerives cfg fl

def Reg (s : PState) (id : String) (t : Option String) : Prop :=
  ∃ fi, alookup s.byId id = some fi ∧
    ∃ ℓ, ℓ ∈ lget s.feats fi ∧ (lget s.lines ℓ).type = t

def RealizedMismatch (all : List FeatureLine) (e : String) : Prop :=
  ∃ n id tN tO, tN ≠ tO ∧ e = typeMismatchMsg n id tN tO ∧
    ∃ a b, a < all.length ∧ b < all.length ∧
      id ∈ lineIds (lget all a) ∧ id ∈ lineIds (lget all b) ∧
      (lget all a).type = tO ∧ (lget all b).type = tN

structure TWF (s : PState) : Prop where
  sound : ∀ id fi, alookup s.byId id = some fi →
    fi < s.feats.length ∧ lget s.feats fi ≠ [] ∧
      ∀ ℓ, ℓ ∈ lget s.feats fi → ℓ < s.lines.length ∧ id ∈ lineIds (lget s.lines ℓ)
  inj : ∀ id1 id2 fi, alookup s.byId id1 = some fi →
    alookup s.byId id2 = some fi → id1 = id2
  types : ∀ id fi, alookup s.byId id = some fi →
    ∀ ℓ1, ℓ1 ∈ lget s.feats fi → ∀ ℓ2, ℓ2 ∈ lget s.feats fi →
      (lget s.lines ℓ1).type = (lget s.lines ℓ2).type

structure InvP (cfg : PCfg) (processed : List FeatureLine) (s : PState) : Prop where
  heof : s.eof = false
  hlines : s.lines = processed
  twf : TWF s
  complete : ∀ k, k < processed.length → ∀ id, id ∈ lineIds (lget processed k) →
    Reg s id (lget processed k).type
  orph : ∀ t, (alookup s.orphans t).isSome = true ↔
    ((∃ k, k < processed.length ∧ t ∈ refsOf cfg (lget processed k)) ∧
      (∀ k, k < processed.length → t ∉ lineIds (lget processed k)))
  onodup : (s.orphans.map (·.1)).Nodup

structure InvMid (cfg : PCfg) (processed : List FeatureLine) (fl : FeatureLine)
    (c : List String) (s : PState) : Prop where
  heof : s.eof = false
  hlines : s.lines = processed ++ [fl]
  twf : TWF s
  complete : ∀ k, k < processed.length → ∀ id, id ∈ lineIds (lget processed k) →
    Reg s id (lget processed k).type
  regc : ∀ id, id ∈ c → Reg s id fl.type
  dom : ∀ t, (alookup s.byId t).isSome = true ↔
    ((∃ k, k < processed.length ∧ t ∈ lineIds (lget processed k)) ∨ t ∈ c)
  orph : ∀ t, (alookup s.orphans t).isSome = true ↔
    (((∃ k, k < processed.length ∧ t ∈ refsOf cfg (lget processed k)) ∧
      (∀ k, k < processed.length → t ∉ lineIds (lget processed k))) ∧ t ∉ c)
  onodup : (s.orphans.map (·.1)).Nodup

def typeConsistent (fls : List FeatureLine) : Prop :=
  ∀ i j id, i < fls.length → j < fls.length → id ∈ lineIds (lget fls i) →
    id ∈ lineIds (lget fls j) → (lget fls i).type = (lget fls j).type

def typeConsistentB (fls : List FeatureLine) : Bool :=
  (List.range fls.length).all fun i => (List.range fls.length).all fun j =>
    (lineIds (lget fls i)).all fun id =>
      !(lineIds (lget fls j)).contains id ||
        decide ((lget fls i).type = (lget fls j).type)

def dangling (cfg : PCfg) (fls : List FeatureLine) (t : String) : Prop :=
  (∃ k, k < fls.length ∧ t ∈ refsOf cfg (lget fls k)) ∧
  (∀ k, k < fls.length → t ∉ lineIds (lget fls k))

def danglingB (cfg : PCfg) (fls : List FeatureLine) (t : String) : Bool :=
  ((List.range fls.length).any fun k => (refsOf cfg (lget fls k)).contains t) &&
  ((List.range fls.length).all fun k => !(lineIds (lget fls k)).contains t)

def feedParsed (cfg : PCfg) (fls : List FeatureLine) : Except String PState :=
  fls.foldlM (fun s fl => addParsedFeatureLine cfg fl s) initPState

def runParsed (cfg : PCfg) (fls : List FeatureLine) : Except String PState := do
  let s ← feedParsed cfg fls
  finishP s

theorem typeConsistent_of_b {fls : List FeatureLine}
    (h : typeConsistentB fls = true) : typeConsistent fls := by
  intro i j id hi hj hmi hmj
  unfold typeConsistentB at h
  rw [List.all_eq_true] at h
  have h1 := h i (List.mem_range.mpr hi)
  rw [List.all_eq_true] at h1
  have h2 := h1 j (List.mem_range.mpr hj)
  rw [List.all_eq_true] at h2
  have h3 := h2 id hmi
  rcases Bool.or_eq_true_iff.mp h3 with h4 | h4
  · exfalso
    rw [Bool.not_eq_true'] at h4
    simp only [List.contains, List.elem_eq_mem, decide_eq_false_iff_not] at h4
    exact h4 hmj
  · exact of_decide_eq_true h4

theorem dangling_of_b {cfg : PCfg} {fls : List FeatureLine} {t : String}
    (h : danglingB cfg fls t = true) : dangling cfg fls t := by
  unfold danglingB at h
  rw [Bool.and_eq_true] at h
  constructor
  · rw [List.any_eq_true] at h
    obtain ⟨k, hk, hc⟩ := h.1
    refine ⟨k, List.mem_range.mp hk, ?_⟩
    simpa [List.contains] using hc
  · intro k hk hm
    have h2 := (List.all_eq_true.mp h.2) k (List.mem_range.mpr hk)
    rw [Bool.not_eq_true'] at h2
    simp only [List.contains, List.elem_eq_mem, decide_eq_false_iff_not] at h2
    exact h2 hm

theorem Reg_sameCore {s s' : PState} (hsc : SameCore s s') {id : String}
    {t : Option String} (h : Reg s id t) : Reg s' id t := by
  obtain ⟨h1, h2, h3, _⟩ := hsc
  unfold Reg at h ⊢
  rw [h1, h2, h3]
  exact h

theorem TWF_sameCore {s s' : PState} (hsc : SameCore s s') (h : TWF s) : TWF s' := by
  obtain ⟨h1, h2, h3, _⟩ := hsc
  constructor
  · intro id fi hfi
    rw [h2] at hfi
    rw [h1, h3]
    exact h.sound id fi hfi
  · intro id1 id2 fi ha hb
    rw [h2] at ha hb
    exact h.inj id1 id2 fi ha hb
  · intro id fi hfi ℓ1 h1m ℓ2 h2m
    rw [h2] at hfi
    rw [h3] at h1m h2m
    rw [h1]
    exact h.types id fi hfi ℓ1 h1m ℓ2 h2m

theorem RealizedMismatch_append {all : List FeatureLine} {e : String}
    (h : RealizedMismatch all e) (more : List FeatureLine) :
    RealizedMismatch (all ++ more) e := by
  obtain ⟨n, id, tN, tO, hne, he, a, b, ha, hb, hma, hmb, hta, htb⟩ := h
  exact ⟨n, id, tN, tO, hne, he, a, b,
    by simp; omega, by simp; omega,
    by rwa [lget_append_lt ha], by rwa [lget_append_lt hb],
    by rwa [lget_append_lt ha], by rwa [lget_append_lt hb]⟩

theorem InvP_init (cfg : PCfg) : InvP cfg [] initPState := by
  constructor
  · rfl
  · rfl
  · constructor
    · intro id fi hfi; cases hfi
    · intro id1 id2 fi ha hb; cases ha
    · intro id fi hfi; cases hfi
  · intro k hk; cases hk
  · intro t
    constructor
    · intro h; cases h
    · rintro ⟨⟨k, hk, _⟩, _⟩; cases hk
  · exact List.nodup_nil

theorem InvP_typeConsistent {cfg : PCfg} {fls : List FeatureLine} {s : PState}
    (hinv : InvP cfg fls s) : typeConsistent fls := by
  intro i j id hi hj hmi hmj
  obtain ⟨fi, hfi, ℓi, hℓi, hti⟩ := hinv.complete i hi id hmi
  obtain ⟨fj, hfj, ℓj, hℓj, htj⟩ := hinv.complete j hj id hmj
  rw [hfi] at hfj
  injection hfj with hfij
  subst hfij
  rw [← hti, ← htj]
  exact hinv.twf.types id fi hfi ℓi hℓi ℓj hℓj

theorem RealizedMismatch_not_typeConsistent {fls : List FeatureLine} {e : String}
    (h : RealizedMismatch fls e) : ¬ typeConsistent fls := by
  obtain ⟨n, id, tN, tO, hne, he, a, b, ha, hb, hma, hmb, hta, htb⟩ := h
  intro hcons
  apply hne
  rw [← htb, ← hta]
  exact (hcons b a id hb ha hmb hma)

theorem Reg_linesAppend {s s1 : PState} (htwf : TWF s) {id : String}
    {t : Option String} (h : Reg s id t) {x : FeatureLine}
    (h2 : s1.lines = s.lines ++ [x]) (h3 : s1.feats = s.feats)
    (h4 : s1.byId = s.byId) : Reg s1 id t := by
  obtain ⟨fi, hfi, ℓ, hℓ, ht⟩ := h
  have hlt : ℓ < s.lines.length := ((htwf.sound id fi hfi).2.2 ℓ hℓ).1
  refine ⟨fi, ?_, ℓ, ?_, ?_⟩
  · rw [h4]; exact hfi
  · rw [h3]; exact hℓ
  · rw [h2, lget_append_lt hlt]; exact ht

theorem Reg_featsSet {s s1 : PState} {ex : Nat} (hex : ex < s.feats.length)
    {id : String} {t : Option String} (h : Reg s id t) {x : Nat}
    (h2 : s1.lines = s.lines)
    (h3 : s1.feats = s.feats.set ex (lget s.feats ex ++ [x]))
    (h4 : s1.byId = s.byId) : Reg s1 id t := by
  obtain ⟨fi, hfi, ℓ, hℓ, ht⟩ := h
  refine ⟨fi, ?_, ℓ, ?_, ?_⟩
  · rw [h4]; exact hfi
  · rw [h3]
    by_cases hfe : fi = ex
    · subst hfe
      rw [lget_set_self hex]
      exact List.mem_append_left _ hℓ
    · rw [lget_set_ne _ hfe]
      exact hℓ
  · rw [h2]; exact ht

theorem Reg_register {s s1 : PState} (htwf : TWF s) {id0 : String} {F : Nat}
    {id : String} {t : Option String} (h : Reg s id t)
    (hby : alookup s.byId id0 = none) {x : List Nat}
    (h2 : s1.lines = s.lines) (h3 : s1.feats = s.feats ++ [x])
    (h4 : s1.byId = aset s.byId id0 F) : Reg s1 id t := by
  obtain ⟨fi, hfi, ℓ, hℓ, ht⟩ := h
  have hne : ¬ id = id0 := by rintro rfl; rw [hfi] at hby; cases hby
  have hlt : fi < s.feats.length := (htwf.sound id fi hfi).1
  refine ⟨fi, ?_, ℓ, ?_, ?_⟩
  · rw [h4, alookup_aset_ne _ hne]; exact hfi
  · rw [h3, lget_append_lt hlt]; exact hℓ
  · rw [h2]; exact ht

theorem InvMid_start {cfg : PCfg} {processed : List FeatureLine} {s : PState}
    (hinv : InvP cfg processed s) (fl : FeatureLine) (s1 : PState)
    (heq1 : s1.eof = s.eof) (heq2 : s1.lines = s.lines ++ [fl])
    (heq3 : s1.feats = s.feats) (heq4 : s1.byId = s.byId)
    (heq5 : s1.orphans = s.orphans) :
    InvMid cfg processed fl [] s1 := by
  obtain ⟨heof, hlines, htwf, hcomplete, horph, honodup⟩ := hinv
  constructor
  · rw [heq1]; exact heof
  · rw [heq2, hlines]
  · constructor
    · intro id fi hfi
      rw [heq4] at hfi
      obtain ⟨b1, b2, b3⟩ := htwf.sound id fi hfi
      rw [heq3]
      refine ⟨b1, b2, ?_⟩
      intro ℓ hℓ
      obtain ⟨c1, c2⟩ := b3 ℓ hℓ
      rw [heq2]
      constructor
      · simp; omega
      · rwa [lget_append_lt c1]
    · intro id1 id2 fi ha hb
      rw [heq4] at ha hb
      exact htwf.inj id1 id2 fi ha hb
    · intro id fi hfi ℓ1 h1 ℓ2 h2
      rw [heq4] at hfi
      rw [heq3] at h1 h2
      have c1 := ((htwf.sound id fi hfi).2.2 ℓ1 h1).1
      have c2 := ((htwf.sound id fi hfi).2.2 ℓ2 h2).1
      rw [heq2, lget_append_lt c1, lget_append_lt c2]
      exact htwf.types id fi hfi ℓ1 h1 ℓ2 h2
  · intro k hk id hm
    exact Reg_linesAppend htwf (hcomplete k hk id hm) heq2 heq3 heq4
  · intro id hm
    cases hm
  · intro t
    rw [heq4]
    constructor
    · intro h
      obtain ⟨fi, hfi⟩ := Option.isSome_iff_exists.mp h
      obtain ⟨b1, b2, b3⟩ := htwf.sound t fi hfi
      obtain ⟨ℓ, hℓ⟩ := List.exists_mem_of_ne_nil _ b2
      obtain ⟨c1, c2⟩ := b3 ℓ hℓ
      left
      refine ⟨ℓ, ?_, ?_⟩
      · rw [← hlines]; exact c1
      · rw [← hlines]; exact c2
    · rintro (⟨k, hk, hm⟩ | hm)
      · obtain ⟨fi, hfi, _⟩ := hcomplete k hk t hm
        rw [hfi]; rfl
      · cases hm
  · intro t
    rw [heq5]
    rw [horph t]
    simp
  · rw [heq5]; exact honodup

theorem InvMid_appendLine {cfg : PCfg} {processed : List FeatureLine}
    {fl : FeatureLine} {c : List String} {s : PState}
    (hinv : InvMid cfg processed fl c s) {id : String} (hid : id ∈ lineIds fl)
    {ex : Nat} (hby : alookup s.byId id = some ex)
    (hty : (lget s.lines ((lget s.feats ex).getLastD 0)).type = fl.type)
    (s1 : PState)
    (heq1 : s1.eof = s.eof) (heq2 : s1.lines = s.lines)
    (heq3 : s1.feats = s.feats.set ex (lget s.feats ex ++ [processed.length]))
    (heq4 : s1.byId = s.byId) (heq5 : s1.orphans = s.orphans) :
    InvMid cfg processed fl (c ++ [id]) s1 := by
  obtain ⟨heof, hlines, htwf, hcomplete, hregc, hdom, horph, honodup⟩ := hinv
  obtain ⟨hexlt, hexne, hexmem⟩ := htwf.sound id ex hby
  have hLlt : processed.length < s.lines.length := by rw [hlines]; simp
  have hLget : lget s.lines processed.length = fl := by
    rw [hlines]; exact lget_append_len _ _
  have hstar := getLastD_mem hexne 0
  have htypeAll : ∀ ℓ, ℓ ∈ lget s.feats ex ++ [processed.length] →
      (lget s.lines ℓ).type = fl.type := by
    intro ℓ hℓ
    rcases List.mem_append.mp hℓ with hm | hm
    · rw [← hty]
      exact htwf.types id ex hby ℓ hm _ hstar
    · simp at hm; subst hm; rw [hLget]
  constructor
  · rw [heq1]; exact heof
  · rw [heq2]; exact hlines
  · constructor
    · intro t fi hfi
      rw [heq4] at hfi
      rw [heq2, heq3]
      by_cases hfe : fi = ex
      · subst hfe
        have ht_eq : t = id := htwf.inj t id _ hfi hby
        subst ht_eq
        rw [lget_set_self hexlt]
        refine ⟨by simpa using hexlt, by simp, ?_⟩
        intro ℓ hℓ
        rcases List.mem_append.mp hℓ with hm | hm
        · exact hexmem ℓ hm
        · simp at hm; subst hm
          exact ⟨hLlt, by rw [hLget]; exact hid⟩
      · rw [lget_set_ne _ hfe]
        obtain ⟨b1, b2, b3⟩ := htwf.sound t fi hfi
        exact ⟨by simpa using b1, b2, b3⟩
    · intro id1 id2 fi ha hb
      rw [heq4] at ha hb
      exact htwf.inj id1 id2 fi ha hb
    · intro t fi hfi ℓ1 h1 ℓ2 h2
      rw [heq4] at hfi
      rw [heq3] at h1 h2
      rw [heq2]
      by_cases hfe : fi = ex
      · subst hfe
        rw [lget_set_self hexlt] at h1 h2
        rw [htypeAll ℓ1 h1, htypeAll ℓ2 h2]
      · rw [lget_set_ne _ hfe] at h1 h2
        exact htwf.types t fi hfi ℓ1 h1 ℓ2 h2
  · intro k hk id2 hm
    exact Reg_featsSet hexlt (hcomplete k hk id2 hm) heq2 heq3 heq4
  · intro id2 hm
    rcases List.mem_append.mp hm with hm2 | hm2
    · exact Reg_featsSet hexlt (hregc id2 hm2) heq2 heq3 heq4
    · simp at hm2; subst hm2
      refine ⟨ex, by rw [heq4]; exact hby, processed.length, ?_, ?_⟩
      · rw [heq3, lget_set_self hexlt]
        exact List.mem_append_right _ (by simp)
      · rw [heq2, hLget]
  · intro t
    rw [heq4]
    constructor
    · intro h
      rcases (hdom t).mp h with h2 | h2
      · exact Or.inl h2
      · exact Or.inr (List.mem_append_left _ h2)
    · rintro (h2 | h2)
      · exact (hdom t).mpr (Or.inl h2)
      · rcases List.mem_append.mp h2 with h3 | h3
        · exact (hdom t).mpr (Or.inr h3)
        · simp at h3; subst h3
          rw [hby]; rfl
  · intro t
    rw [heq5]
    constructor
    · intro h
      have h2 := (horph t).mp h
      refine ⟨h2.1, ?_⟩
      intro hm
      rcases List.mem_append.mp hm with h3 | h3
      · exact h2.2 h3
      · simp at h3; subst h3
        have hdm := (hdom t).mp (by rw [hby]; rfl)
        rcases hdm with ⟨k, hk, hmk⟩ | hic
        · exact (h2.1.2 k hk) hmk
        · exact h2.2 hic
    · rintro ⟨hX, hnc⟩
      exact (horph t).mpr ⟨hX, fun hm => hnc (List.mem_append_left _ hm)⟩
  · rw [heq5]; exact honodup

theorem InvMid_register {cfg : PCfg} {processed : List FeatureLine}
    {fl : FeatureLine} {c : List String} {s : PState}
    (hinv : InvMid cfg processed fl c s) {id : String} (hid : id ∈ lineIds fl)
    (hby : alookup s.byId id = none) (s1 : PState)
    (heq1 : s1.eof = s.eof) (heq2 : s1.lines = s.lines)
    (heq3 : s1.feats = s.feats ++ [[processed.length]])
    (heq4 : s1.byId = aset s.byId id s.feats.length)
    (heq5 : s1.orphans = s.orphans) :
    InvMid cfg processed fl (c ++ [id])
      (resolveReferencesTo s.feats.length id s1) := by
  obtain ⟨heof, hlines, htwf, hcomplete, hregc, hdom, horph, honodup⟩ := hinv
  have honod1 : (s1.orphans.map (·.1)).Nodup := by rw [heq5]; exact honodup
  obtain ⟨hl, hbid, hft, herr, hevf, hln, htl⟩ :=
    resolveReferencesTo_sameCore s.feats.length id s1
  have horphres : ∀ t,
      alookup (resolveReferencesTo s.feats.length id s1).orphans t =
        if t = id then none else alookup s.orphans t := by
    intro t
    rw [resolveReferencesTo_orphans _ _ _ honod1 t, heq5]
  have halook : ∀ t, alookup s1.byId t =
      if t = id then some s.feats.length else alookup s.byId t := by
    intro t
    rw [heq4]
    by_cases h : t = id
    · subst h; rw [if_pos rfl, alookup_aset_self]
    · rw [if_neg h, alookup_aset_ne _ h]
  have hLlt : processed.length < s.lines.length := by rw [hlines]; simp
  have hLget : lget s.lines processed.length = fl := by
    rw [hlines]; exact lget_append_len _ _
  have htwf1 : TWF s1 := by
    constructor
    · intro t fi hfi
      rw [halook t] at hfi
      rw [heq2, heq3]
      by_cases h : t = id
      · rw [if_pos h] at hfi
        injection hfi with hfi
        subst hfi
        rw [lget_append_len]
        refine ⟨by simp, by simp, ?_⟩
        intro ℓ hℓ
        simp at hℓ; subst hℓ
        refine ⟨hLlt, ?_⟩
        rw [hLget]
        subst h
        exact hid
      · rw [if_neg h] at hfi
        obtain ⟨b1, b2, b3⟩ := htwf.sound t fi hfi
        rw [lget_append_lt b1]
        exact ⟨by simp; omega, b2, b3⟩
    · intro id1 id2 fi ha hb
      rw [halook id1] at ha
      rw [halook id2] at hb
      by_cases h1 : id1 = id
      · rw [if_pos h1] at ha
        by_cases h2 : id2 = id
        · rw [h1, h2]
        · rw [if_neg h2] at hb
          injection ha with ha2
          have := (htwf.sound id2 fi hb).1
          rw [← ha2] at this
          exact absurd this (Nat.lt_irrefl _)
      · rw [if_neg h1] at ha
        by_cases h2 : id2 = id
        · rw [if_pos h2] at hb
          injection hb with hb2
          have := (htwf.sound id1 fi ha).1
          rw [← hb2] at this
          exact absurd this (Nat.lt_irrefl _)
        · rw [if_neg h2] at hb
          exact htwf.inj id1 id2 fi ha hb
    · intro t fi hfi ℓ1 h1 ℓ2 h2
      rw [halook t] at hfi
      rw [heq3] at h1 h2
      rw [heq2]
      by_cases h : t = id
      · rw [if_pos h] at hfi
        injection hfi with hfi
        subst hfi
        rw [lget_append_len] at h1 h2
        simp at h1 h2
        rw [h1, h2]
      · rw [if_neg h] at hfi
        have b1 := (htwf.sound t fi hfi).1
        rw [lget_append_lt b1] at h1 h2
        exact htwf.types t fi hfi ℓ1 h1 ℓ2 h2
  have hsc1 : SameCore s1 (resolveReferencesTo s.feats.length id s1) :=
    ⟨hl, hbid, hft, herr, hevf, hln, htl⟩
  constructor
  · rw [hevf, heq1]; exact heof
  · rw [hl, heq2]; exact hlines
  · exact TWF_sameCore hsc1 htwf1
  · intro k hk id2 hm
    exact Reg_sameCore hsc1
      (Reg_register htwf (hcomplete k hk id2 hm) hby heq2 heq3 heq4)
  · intro id2 hm
    rcases List.mem_append.mp hm with hm2 | hm2
    · exact Reg_sameCore hsc1
        (Reg_register htwf (hregc id2 hm2) hby heq2 heq3 heq4)
    · simp at hm2; subst hm2
      refine ⟨s.feats.length, ?_, processed.length, ?_, ?_⟩
      · rw [hbid, halook, if_pos rfl]
      · rw [hft, heq3, lget_append_len]
        simp
      · rw [hl, heq2, hLget]
  · intro t
    rw [hbid, halook t]
    by_cases h : t = id
    · subst h
      rw [if_pos rfl]
      simp
    · rw [if_neg h]
      constructor
      · intro hh
        rcases (hdom t).mp hh with h2 | h2
        · exact Or.inl h2
        · exact Or.inr (List.mem_append_left _ h2)
      · rintro (h2 | h2)
        · exact (hdom t).mpr (Or.inl h2)
        · rcases List.mem_append.mp h2 with h3 | h3
          · exact (hdom t).mpr (Or.inr h3)
          · simp at h3
            exact absurd h3 h
  · intro t
    rw [horphres t]
    by_cases h : t = id
    · subst h
      simp
    · rw [if_neg h]
      constructor
      · intro hh
        have h2 := (horph t).mp hh
        refine ⟨h2.1, ?_⟩
        intro hm
        rcases List.mem_append.mp hm with h3 | h3
        · exact h2.2 h3
        · simp at h3
          exact h h3
      · rintro ⟨hX, hnc⟩
        exact (horph t).mpr ⟨hX, fun hm => hnc (List.mem_append_left _ hm)⟩
  · exact resolveReferencesTo_orphans_nodup _ _ _ honod1

theorem Reg_featsAppend {s s1 : PState} (htwf : TWF s) {id : String}
    {t : Option String} (h : Reg s id t) {x : List Nat}
    (h2 : s1.lines = s.lines) (h3 : s1.feats = s.feats ++ [x])
    (h4 : s1.byId = s.byId) : Reg s1 id t := by
  obtain ⟨fi, hfi, ℓ, hℓ, ht⟩ := h
  have hlt : fi < s.feats.length := (htwf.sound id fi hfi).1
  refine ⟨fi, ?_, ℓ, ?_, ?_⟩
  · rw [h4]; exact hfi
  · rw [h3, lget_append_lt hlt]; exact hℓ
  · rw [h2]; exact ht

theorem not_exists_iff_forall_not_mem {processed : List FeatureLine} {t : String}
    (f : FeatureLine → List String) :
    (¬ ∃ k, k < processed.length ∧ t ∈ f (lget processed k)) ↔
      (∀ k, k < processed.length → t ∉ f (lget processed k)) := by
  push_neg
  rfl

theorem InvP_finishLine {cfg : PCfg} {processed : List FeatureLine}
    {fl : FeatureLine} {s : PState}
    (hinv : InvMid cfg processed fl (lineIds fl) s) (fi : Nat) :
    InvP cfg (processed ++ [fl])
      (resolveReferencesFrom fi (lineParents fl) (lineDerives cfg fl)
        (lineIds fl) s) := by
  obtain ⟨heof, hlines, htwf, hcomplete, hregc, hdom, horph, honodup⟩ := hinv
  have hsc := resolveReferencesFrom_sameCore fi (lineParents fl)
    (lineDerives cfg fl) (lineIds fl) s
  obtain ⟨hl, hbid, hft, herr, hevf, hln, htl⟩ := hsc
  constructor
  · rw [hevf]; exact heof
  · rw [hl]; exact hlines
  · exact TWF_sameCore ⟨hl, hbid, hft, herr, hevf, hln, htl⟩ htwf
  · intro k hk id hm
    by_cases hklt : k < processed.length
    · rw [lget_append_lt hklt] at hm ⊢
      exact Reg_sameCore ⟨hl, hbid, hft, herr, hevf, hln, htl⟩
        (hcomplete k hklt id hm)
    · have hkeq : k = processed.length := by simp at hk; omega
      subst hkeq
      rw [lget_append_len] at hm ⊢
      exact Reg_sameCore ⟨hl, hbid, hft, herr, hevf, hln, htl⟩ (hregc id hm)
  · intro t
    rw [resolveReferencesFrom_orphans, horph t]
    have hmemr : t ∈ refsOf cfg fl ↔
        (t ∈ lineParents fl ∨ t ∈ lineDerives cfg fl) := List.mem_append
    have hNiff := @not_exists_iff_forall_not_mem processed t lineIds
    have hnone_iff : alookup s.byId t = none ↔
        ¬ ((∃ k, k < processed.length ∧ t ∈ lineIds (lget processed k)) ∨
            t ∈ lineIds fl) := by
      constructor
      · intro hc hor
        have h2 := (hdom t).mpr hor
        rw [hc] at h2
        cases h2
      · intro hn
        rcases hcase : alookup s.byId t with _ | v
        · rfl
        · exfalso
          apply hn
          apply (hdom t).mp
          rw [hcase]
          rfl
    rw [hnone_iff]
    rw [exists_lget_append processed fl (fun x => t ∈ refsOf cfg x),
        forall_lget_append processed fl (fun x => t ∉ lineIds x)]
    rw [hmemr]
    set E := ∃ k, k < processed.length ∧ t ∈ refsOf cfg (lget processed k)
    set N := ∀ k, k < processed.length → t ∉ lineIds (lget processed k)
    set C := t ∈ lineIds fl
    set E2 := ∃ k, k < processed.length ∧ t ∈ lineIds (lget processed k)
    set Pp := t ∈ lineParents fl
    set Pd := t ∈ lineDerives cfg fl
    constructor
    · rintro (⟨⟨hE, hN⟩, hC⟩ | ⟨hR, hn⟩)
      · exact ⟨Or.inl hE, hN, hC⟩
      · exact ⟨Or.inr hR, hNiff.mp (fun h => hn (Or.inl h)),
          fun h => hn (Or.inr h)⟩
    · rintro ⟨hER, hN, hC⟩
      rcases hER with hE | hR
      · exact Or.inl ⟨⟨hE, hN⟩, hC⟩
      · refine Or.inr ⟨hR, ?_⟩
        rintro (hE2 | hC2)
        · exact hNiff.mpr hN hE2
        · exact hC hC2
  · exact resolveReferencesFrom_orphans_nodup _ _ _ _ _ honodup

theorem InvP_finishLine_noIds {cfg : PCfg} {processed : List FeatureLine}
    {fl : FeatureLine} {s : PState} (hids : lineIds fl = [])
    (hinv : InvMid cfg processed fl [] s) (fi : Nat) (x : List Nat)
    (s1 : PState)
    (heq1 : s1.eof = s.eof) (heq2 : s1.lines = s.lines)
    (heq3 : s1.feats = s.feats ++ [x]) (heq4 : s1.byId = s.byId)
    (heq5 : s1.orphans = s.orphans) :
    InvP cfg (processed ++ [fl])
      (resolveReferencesFrom fi (lineParents fl) (lineDerives cfg fl)
        (lineIds fl) s1) := by
  obtain ⟨heof, hlines, htwf, hcomplete, hregc, hdom, horph, honodup⟩ := hinv
  have htwf1 : TWF s1 := by
    constructor
    · intro t fi2 hfi
      rw [heq4] at hfi
      obtain ⟨b1, b2, b3⟩ := htwf.sound t fi2 hfi
      rw [heq2, heq3, lget_append_lt b1]
      exact ⟨by simp; omega, b2, b3⟩
    · intro id1 id2 fi2 ha hb
      rw [heq4] at ha hb
      exact htwf.inj id1 id2 fi2 ha hb
    · intro t fi2 hfi ℓ1 h1 ℓ2 h2
      rw [heq4] at hfi
      have b1 := (htwf.sound t fi2 hfi).1
      rw [heq3, lget_append_lt b1] at h1 h2
      rw [heq2]
      exact htwf.types t fi2 hfi ℓ1 h1 ℓ2 h2
  have hsc := resolveReferencesFrom_sameCore fi (lineParents fl)
    (lineDerives cfg fl) (lineIds fl) s1
  obtain ⟨hl, hbid, hft, herr, hevf, hln, htl⟩ := hsc
  have honod1 : (s1.orphans.map (·.1)).Nodup := by rw [heq5]; exact honodup
  constructor
  · rw [hevf, heq1]; exact heof
  · rw [hl, heq2]; exact hlines
  · exact TWF_sameCore ⟨hl, hbid, hft, herr, hevf, hln, htl⟩ htwf1
  · intro k hk id hm
    by_cases hklt : k < processed.length
    · rw [lget_append_lt hklt] at hm ⊢
      exact Reg_sameCore ⟨hl, hbid, hft, herr, hevf, hln, htl⟩
        (Reg_featsAppend htwf (hcomplete k hklt id hm) heq2 heq3 heq4)
    · have hkeq : k = processed.length := by simp at hk; omega
      subst hkeq
      rw [lget_append_len] at hm
      rw [hids] at hm
      cases hm
  · intro t
    rw [resolveReferencesFrom_orphans]
    have horph1 : (alookup s1.orphans t).isSome = true ↔
        ((∃ k, k < processed.length ∧ t ∈ refsOf cfg (lget processed k)) ∧
          (∀ k, k < processed.length → t ∉ lineIds (lget processed k))) := by
      rw [heq5, horph t]
      simp
    rw [horph1]
    have hmemr : t ∈ refsOf cfg fl ↔
        (t ∈ lineParents fl ∨ t ∈ lineDerives cfg fl) := List.mem_append
    have hnone_iff : alookup s1.byId t = none ↔
        ¬ (∃ k, k < processed.length ∧ t ∈ lineIds (lget processed k)) := by
      rw [heq4]
      constructor
      · intro hc hor
        have h2 := (hdom t).mpr (Or.inl hor)
        rw [hc] at h2
        cases h2
      · intro hn
        rcases hcase : alookup s.byId t with _ | v
        · rfl
        · exfalso
          rcases (hdom t).mp (by rw [hcase]; rfl) with h2 | h2
          · exact hn h2
          · cases h2
    rw [hnone_iff]
    rw [exists_lget_append processed fl (fun x => t ∈ refsOf cfg x),
        forall_lget_append processed fl (fun x => t ∉ lineIds x)]
    rw [hmemr]
    have hNiff := @not_exists_iff_forall_not_mem processed t lineIds
    have hC : t ∉ lineIds fl := by rw [hids]; exact List.not_mem_nil _
    set E := ∃ k, k < processed.length ∧ t ∈ refsOf cfg (lget processed k)
    set N := ∀ k, k < processed.length → t ∉ lineIds (lget processed k)
    set E2 := ∃ k, k < processed.length ∧ t ∈ lineIds (lget processed k)
    set Pp := t ∈ lineParents fl
    set Pd := t ∈ lineDerives cfg fl
    constructor
    · rintro (⟨hE, hN⟩ | ⟨hR, hn⟩)
      · exact ⟨Or.inl hE, hN, hC⟩
      · exact ⟨Or.inr hR, hNiff.mp hn, hC⟩
    · rintro ⟨hER, hN, _⟩
      rcases hER with hE | hR
      · exact Or.inl ⟨hE, hN⟩
      · exact Or.inr ⟨hR, hNiff.mpr hN⟩
  · exact resolveReferencesFrom_orphans_nodup _ _ _ _ _ honod1

theorem InvP_emitFeature {cfg : PCfg} {processed : List FeatureLine} {s : PState}
    (hinv : InvP cfg processed s) (fi : Nat) :
    InvP cfg processed (emitFeature fi s) := by
  obtain ⟨heof, hlines, htwf, hcomplete, horph, honodup⟩ := hinv
  exact ⟨heof, hlines,
    ⟨htwf.sound, htwf.inj, htwf.types⟩, hcomplete, horph, honodup⟩

theorem bufferIdStep_spec {cfg : PCfg} (hb : cfg.bufferSize = none)
    (hth : cfg.throwErrCb = true)
    {processed : List FeatureLine} {fl : FeatureLine} {c : List String}
    (parents derives : List String)
    {s : PState} (a : Option Nat) {id : String} (hid : id ∈ lineIds fl)
    (hinv : InvMid cfg processed fl c s) :
    (∃ s2 f2, bufferIdStep cfg fl processed.length parents derives (s, a) id =
        .ok (s2, some f2) ∧ InvMid cfg processed fl (c ++ [id]) s2) ∨
    (∃ e, bufferIdStep cfg fl processed.length parents derives (s, a) id =
        .error e ∧ RealizedMismatch (processed ++ [fl]) e) := by
  unfold bufferIdStep
  rcases hby : alookup s.byId id with _ | ex
  · -- fresh id: registration
    left
    simp only [hby]
    rw [enforceBufferSizeLimit_none hb]
    split
    · exact ⟨_, _, rfl, InvMid_register hinv hid hby _ rfl rfl rfl rfl rfl⟩
    · exact ⟨_, _, rfl, InvMid_register hinv hid hby _ rfl rfl rfl rfl rfl⟩
  · -- existing feature: type check then append
    simp only [hby]
    by_cases hty :
        (lget s.lines ((lget s.feats ex).getLastD 0)).type = fl.type
    · left
      rw [if_neg (not_not_intro hty)]
      refine ⟨{ s with feats := s.feats.set ex (lget s.feats ex ++ [processed.length]) },
        ex, ?_, InvMid_appendLine hinv hid hby hty _ rfl rfl rfl rfl rfl⟩
      simp [bind, Except.bind, pure, Except.pure]
    · right
      rw [if_pos hty, hth, if_pos rfl]
      refine ⟨typeMismatchMsg s.lineNumber id fl.type
        (lget s.lines ((lget s.feats ex).getLastD 0)).type, ?_, ?_⟩
      · simp [bind, Except.bind, throw, throwThe, MonadExceptOf.throw]
      · obtain ⟨hexlt, hexne, hexmem⟩ := hinv.twf.sound id ex hby
        have hstar := getLastD_mem hexne 0
        obtain ⟨hstlt, hstid⟩ := hexmem _ hstar
        refine ⟨s.lineNumber, id, fl.type,
          (lget s.lines ((lget s.feats ex).getLastD 0)).type,
          fun h => hty h.symm, rfl,
          (lget s.feats ex).getLastD 0, processed.length, ?_, ?_, ?_, ?_, ?_, ?_⟩
        · rw [← hinv.hlines]; exact hstlt
        · simp
        · rw [← hinv.hlines]; exact hstid
        · rw [lget_append_len]; exact hid
        · rw [← hinv.hlines]
        · rw [lget_append_len]

theorem idsFold_spec {cfg : PCfg} (hb : cfg.bufferSize = none)
    (hth : cfg.throwErrCb = true)
    {processed : List FeatureLine} {fl : FeatureLine}
    (parents derives : List String) :
    ∀ (ids2 c : List String) (s : PState) (a : Option Nat),
      (∀ id ∈ ids2, id ∈ lineIds fl) → InvMid cfg processed fl c s →
      (∃ s2 a2, ids2.foldlM (bufferIdStep cfg fl processed.length parents derives)
          (s, a) = .ok (s2, a2) ∧ InvMid cfg processed fl (c ++ ids2) s2 ∧
          (ids2 = [] → a2 = a) ∧ (ids2 ≠ [] → a2.isSome = true)) ∨
      (∃ e, ids2.foldlM (bufferIdStep cfg fl processed.length parents derives)
          (s, a) = .error e ∧ RealizedMismatch (processed ++ [fl]) e) := by
  intro ids2
  induction ids2 with
  | nil =>
    intro c s a _ hinv
    left
    exact ⟨s, a, rfl, by simpa using hinv, fun _ => rfl, fun h => absurd rfl h⟩
  | cons id rest ih =>
    intro c s a hall hinv
    rw [List.foldlM_cons]
    rcases bufferIdStep_spec hb hth parents derives a
        (hall id (List.mem_cons_self _ _)) hinv with
      ⟨s2, f2, heq, hinv2⟩ | ⟨e, heq, hrm⟩
    · rw [heq]
      simp only [bind, Except.bind]
      rcases ih (c ++ [id]) s2 (some f2)
          (fun i hi => hall i (List.mem_cons_of_mem _ hi)) hinv2 with
        ⟨s3, a3, heq3, hinv3, hnil, hsome⟩ | ⟨e, heq3, hrm⟩
      · left
        refine ⟨s3, a3, heq3, ?_, ?_, ?_⟩
        · have hcc : (c ++ [id]) ++ rest = c ++ id :: rest := by simp
          exact hcc ▸ hinv3
        · intro h
          exact absurd h (List.cons_ne_nil _ _)
        · intro _
          rcases hrest : rest with _ | ⟨r, rt⟩
          · subst hrest
            rw [hnil rfl]
            rfl
          · exact hsome (by simp [hrest])
      · right
        exact ⟨e, heq3, hrm⟩
    · right
      rw [heq]
      exact ⟨e, by simp [bind, Except.bind], hrm⟩

theorem addParsedFeatureLine_spec {cfg : PCfg} (hb : cfg.bufferSize = none)
    (hth : cfg.throwErrCb = true) {processed : List FeatureLine}
    (fl : FeatureLine) {s : PState} (hinv : InvP cfg processed s) :
    (∃ s2, addParsedFeatureLine cfg fl s = .ok s2 ∧
        InvP cfg (processed ++ [fl]) s2) ∨
    (∃ e, addParsedFeatureLine cfg fl s = .error e ∧
        RealizedMismatch (processed ++ [fl]) e) := by
  have hmid : InvMid cfg processed fl []
      { s with eof := false
               lineNumber := s.lineNumber + 1
               lines := s.lines ++ [fl]
               childF := s.childF ++ [[]]
               derivedF := s.derivedF ++ [[]] } :=
    InvMid_start hinv fl _ hinv.heof.symm rfl rfl rfl rfl
  unfold addParsedFeatureLine
  rw [hinv.heof]
  simp only [Bool.false_eq_true, if_false]
  unfold bufferParsedLine
  dsimp only
  rw [show s.lines.length = processed.length from by rw [hinv.hlines]]
  split
  · -- standalone singleton: no ids, no refs
    rename_i hcond
    rw [Bool.and_eq_true, Bool.and_eq_true] at hcond
    have hids : lineIds fl = [] := by
      have := hcond.1.1
      rwa [List.isEmpty_iff] at this
    have hp : lineParents fl = [] := by
      have := hcond.1.2
      rwa [List.isEmpty_iff] at this
    have hd : lineDerives cfg fl = [] := by
      have := hcond.2
      rwa [List.isEmpty_iff] at this
    left
    refine ⟨_, rfl, InvP_emitFeature ?_ _⟩
    have hfin := InvP_finishLine_noIds hids hmid 0 [processed.length]
      { s with eof := false
               lineNumber := s.lineNumber + 1
               lines := s.lines ++ [fl]
               childF := s.childF ++ [[]]
               derivedF := s.derivedF ++ [[]]
               feats := s.feats ++ [[processed.length]] }
      rfl rfl rfl rfl rfl
    rw [hp, hd, hids, resolveReferencesFrom_nil] at hfin
    exact hfin
  · rcases idsFold_spec hb hth (lineParents fl) (lineDerives cfg fl)
        (lineIds fl) [] _ none (fun _ h => h) hmid with
      ⟨s2, a2, heqf, hinv2, hnil, hsome⟩ | ⟨e, heqf, hrm⟩
    · rw [heqf]
      simp only [bind, Except.bind]
      have hinv2' : InvMid cfg processed fl (lineIds fl) s2 := by
        simpa using hinv2
      rcases a2 with _ | fi
      · -- no feature variable: the ids list must have been empty
        rcases hids : lineIds fl with _ | ⟨i0, irest⟩
        · left
          have hmid2 : InvMid cfg processed fl [] s2 := by
            simpa [hids] using hinv2'
          refine ⟨_, rfl, ?_⟩
          have hfin := InvP_finishLine_noIds hids hmid2
            s2.feats.length [processed.length]
            { s2 with feats := s2.feats ++ [[processed.length]] }
            rfl rfl rfl rfl rfl
          rw [hids] at hfin
          exact hfin
        · exfalso
          have := hsome (by simp [hids])
          simp at this
      · left
        exact ⟨_, rfl, InvP_finishLine hinv2' fi⟩
    · rw [heqf]
      right
      exact ⟨e, by simp [bind, Except.bind], hrm⟩

theorem feed_spec {cfg : PCfg} (hb : cfg.bufferSize = none)
    (hth : cfg.throwErrCb = true) :
    ∀ (rest processed : List FeatureLine) (s : PState), InvP cfg processed s →
    (∃ s2, rest.foldlM (fun s fl => addParsedFeatureLine cfg fl s) s = .ok s2 ∧
       InvP cfg (processed ++ rest) s2) ∨
    (∃ e, rest.foldlM (fun s fl => addParsedFeatureLine cfg fl s) s = .error e ∧
       RealizedMismatch (processed ++ rest) e) := by
  intro rest
  induction rest with
  | nil =>
    intro processed s hinv
    left
    exact ⟨s, rfl, by simpa using hinv⟩
  | cons fl rest ih =>
    intro processed s hinv
    rw [List.foldlM_cons]
    rcases addParsedFeatureLine_spec hb hth fl hinv with
      ⟨s2, heq, hinv2⟩ | ⟨e, heq, hrm⟩
    · rw [heq]
      simp only [bind, Except.bind]
      rcases ih (processed ++ [fl]) s2 hinv2 with
        ⟨s3, heq3, hinv3⟩ | ⟨e, heq3, hrm⟩
      · left
        refine ⟨s3, heq3, ?_⟩
        have hcc : (processed ++ [fl]) ++ rest = processed ++ fl :: rest := by simp
        exact hcc ▸ hinv3
      · right
        refine ⟨e, heq3, ?_⟩
        have hcc : (processed ++ [fl]) ++ rest = processed ++ fl :: rest := by simp
        exact hcc ▸ hrm
    · rw [heq]
      right
      refine ⟨e, by simp [bind, Except.bind], ?_⟩
      have h2 := RealizedMismatch_append hrm rest
      have hcc : (processed ++ [fl]) ++ rest = processed ++ fl :: rest := by simp
      exact hcc ▸ h2

/-- **C3 amended** — Under a configuration with unlimited buffer and a
throwing error callback (`parseStringSync`): for every pre-decoded input
containing two feature lines in the same `###` scope (here: the whole input)
that share an `ID` value but have different `type` values, the run fails with
an error that is a type-mismatch message realized in the input: it names an
`ID` and two distinct type strings both carried by input lines with that
`ID`, and no further records are processed (the whole run aborts). -/
theorem c3_type_mismatch_same_scope (cfg : PCfg) (hb : cfg.bufferSize = none)
    (hth : cfg.throwErrCb = true) (fls : List FeatureLine)
    (i j : Nat) (id : String) (hij : i < j) (hj : j < fls.length)
    (hmi : id ∈ lineIds (lget fls i)) (hmj : id ∈ lineIds (lget fls j))
    (hty : (lget fls i).type ≠ (lget fls j).type) :
    ∃ e, runParsed cfg fls = .error e ∧ RealizedMismatch fls e := by
  rcases @feed_spec cfg hb hth fls [] initPState (InvP_init cfg) with
    ⟨s2, heq, hinv⟩ | ⟨e, heq, hrm⟩
  · exfalso
    have hinv' : InvP cfg fls s2 := by simpa using hinv
    exact hty (InvP_typeConsistent hinv' i j id (lt_trans hij hj) hj hmi hmj)
  · refine ⟨e, ?_, by simpa using hrm⟩
    unfold runParsed
    rw [show feedParsed cfg fls = .error e from heq]
    simp [bind, Except.bind]

theorem c3_type_mismatch_same_scope_witness :
    (0 : Nat) < 1 ∧
    1 < ([parseFeatureU c3LineA, parseFeatureU c3LineB] : List FeatureLine).length ∧
    "g1" ∈ lineIds (lget [parseFeatureU c3LineA, parseFeatureU c3LineB] 0) ∧
    "g1" ∈ lineIds (lget [parseFeatureU c3LineA, parseFeatureU c3LineB] 1) ∧
    (lget [parseFeatureU c3LineA, parseFeatureU c3LineB] 0).type ≠
      (lget [parseFeatureU c3LineA, parseFeatureU c3LineB] 1).type ∧
    (∃ e, runParsed syncCfg [parseFeatureU c3LineA, parseFeatureU c3LineB] = .error e ∧
      RealizedMismatch [parseFeatureU c3LineA, parseFeatureU c3LineB] e) :=
  ⟨by decide, by decide, by decide, by decide, by decide,
    c3_type_mismatch_same_scope syncCfg rfl rfl _ 0 1 "g1" (by decide) (by decide)
      (by decide) (by decide) (by decide)⟩

/-- **C2** — Under a configuration with unlimited buffer and a throwing
error callback: for every type-consistent pre-decoded input in which some
line references a `Parent`/`Derives_from` target that never occurs as an
`ID` value in the scope (single scope, closed at end of input), the run
fails fatally at scope close with the unresolved-reference error, and the
key list of that error names exactly the still-dangling target ids — every
dangling id and nothing else. -/
theorem c2_unresolved_references_fatal (cfg : PCfg) (hb : cfg.bufferSize = none)
    (hth : cfg.throwErrCb = true) (fls : List FeatureLine) (t0 : String)
    (hcons : typeConsistentB fls = true)
    (hd : danglingB cfg fls t0 = true) :
    ∃ keys, runParsed cfg fls = .error (orphanErrMsg keys) ∧ keys ≠ [] ∧
      ∀ t, t ∈ keys ↔ dangling cfg fls t := by
  rcases @feed_spec cfg hb hth fls [] initPState (InvP_init cfg) with
    ⟨s2, heq, hinv⟩ | ⟨e, heq, hrm⟩
  · have hinv' : InvP cfg fls s2 := by simpa using hinv
    have hd' := dangling_of_b hd
    have hsome : (alookup s2.orphans t0).isSome = true := (hinv'.orph t0).mpr hd'
    have hne : s2.orphans ≠ [] := by
      intro h0
      rw [h0] at hsome
      cases hsome
    have hie : s2.orphans.isEmpty = false := by
      rcases ho : s2.orphans with _ | ⟨p, rest⟩
      · exact absurd ho hne
      · rfl
    refine ⟨s2.orphans.map (·.1), ?_, ?_, ?_⟩
    · unfold runParsed
      rw [show feedParsed cfg fls = .ok s2 from heq]
      simp only [bind, Except.bind]
      unfold finishP emitAllUnderConstruction
      dsimp only
      rw [hie]
      simp [throw, throwThe, MonadExceptOf.throw]
    · intro h0
      rw [List.map_eq_nil_iff] at h0
      exact hne h0
    · intro t
      rw [mem_map_fst_iff_alookup_isSome]
      exact hinv'.orph t
  · exfalso
    have hrm' : RealizedMismatch fls e := by simpa using hrm
    exact RealizedMismatch_not_typeConsistent hrm' (typeConsistent_of_b hcons)

theorem c2_unresolved_references_fatal_witness :
    typeConsistentB [parseFeatureU c4MrnaLine] = true ∧
    danglingB syncCfg [parseFeatureU c4MrnaLine] "gene1" = true ∧
    (∃ keys, runParsed syncCfg [parseFeatureU c4MrnaLine] =
        .error (orphanErrMsg keys) ∧ keys ≠ [] ∧
      ∀ t, t ∈ keys ↔ dangling syncCfg [parseFeatureU c4MrnaLine] t) :=
  ⟨by decide, by decide,
    c2_unresolved_references_fatal syncCfg rfl rfl _ "gene1" (by decide) (by decide)⟩

def c1StateT (x : String) (tX : FeatureLine) : PState :=
  { eof := false, lineNumber := 1, lines := [tX], childF := [[]], derivedF := [[]]
    feats := [[0]], topLevel := [0], byId := [(x, 0)], completedRefs := []
    orphans := [], emittedF := [], directives := [], comments := [], errors := [] }

def c1State (x f : String) (tX : FeatureLine) (chs : List FeatureLine) : PState :=
  { eof := false, lineNumber := 1 + chs.length, lines := tX :: chs
    childF := [1] :: chs.map (fun _ => [])
    derivedF := [] :: chs.map (fun _ => [])
    feats := [[0], List.range' 1 chs.length], topLevel := [0]
    byId := [(x, 0), (f, 1)], completedRefs := [(f, ["Parent," ++ x])]
    orphans := [], emittedF := [], directives := [], comments := [], errors := [] }

theorem c1_stepT {cfg : PCfg} (hb : cfg.bufferSize = none) {x : String}
    {tX : FeatureLine} (hids : lineIds tX = [x]) (hpar : lineParents tX = [])
    (hder : lineDerives cfg tX = []) :
    addParsedFeatureLine cfg tX initPState = .ok (c1StateT x tX) := by
  unfold addParsedFeatureLine
  simp only [show initPState.eof = false from rfl, Bool.false_eq_true, if_false]
  unfold bufferParsedLine
  dsimp only [initPState]
  rw [hids, hpar, hder]
  simp only [List.isEmpty_nil, List.isEmpty_cons, Bool.false_and, Bool.and_false,
    Bool.and_true, Bool.false_eq_true, if_false]
  obtain ⟨a2, heq, hsome⟩ := fold_bufferIdStep_fresh hb tX 0 [x]
    { eof := false, lineNumber := 1, lines := [tX], childF := [[]]
      derivedF := [[]], feats := [], topLevel := [], byId := []
      completedRefs := [], orphans := [], emittedF := [], directives := []
      comments := [], errors := [] } none (by simp)
    (by intro id _; rfl) (by intro id _; rfl)
  simp only [List.length_nil, List.nil_append, Nat.zero_add] at heq ⊢
  rw [heq]
  rcases a2 with _ | fi
  · exact absurd (hsome (by simp)) (by simp)
  · simp [bind, Except.bind, resolveReferencesFrom_nil, pure, Except.pure,
      regOne, c1StateT]

theorem c1_stepC1 {cfg : PCfg} (hb : cfg.bufferSize = none) {x f : String}
    (hxf : ¬ x = f) {tX ch : FeatureLine}
    (hids : lineIds ch = [f]) (hpar : lineParents ch = [x])
    (hder : lineDerives cfg ch = []) :
    addParsedFeatureLine cfg ch (c1StateT x tX) = .ok (c1State x f tX [ch]) := by
  have hbn := enforceBufferSizeLimit_none hb
  unfold addParsedFeatureLine
  simp only [show (c1StateT x tX).eof = false from rfl, Bool.false_eq_true, if_false]
  unfold bufferParsedLine bufferIdStep
  dsimp only [c1StateT]
  rw [hids, hpar, hder]
  simp [alookup, aset, lget, hxf, hbn, bind, Except.bind, pure, Except.pure,
        resolveReferencesTo, resolveReferencesFrom, resolveRefsKind,
        markCompletedRefs, c1State, List.range']

theorem c1_stepC2 {cfg : PCfg} (hb : cfg.bufferSize = none) {x f : String}
    (hxf : ¬ x = f) {tX ch clast : FeatureLine} (l' : List FeatureLine)
    (hids : lineIds ch = [f]) (hpar : lineParents ch = [x])
    (hder : lineDerives cfg ch = []) (htyeq : clast.type = ch.type) :
    addParsedFeatureLine cfg ch (c1State x f tX (l' ++ [clast])) =
      .ok (c1State x f tX ((l' ++ [clast]) ++ [ch])) := by
  have hbn := enforceBufferSizeLimit_none hb
  have hlast : (List.range' 1 (l'.length + 1)).getLastD 0 = l'.length + 1 := by
    rw [List.range'_1_concat, getLastD_append_single, Nat.add_comm]
  have hlget : lget (tX :: (l' ++ [clast])) (l'.length + 1) = clast := by
    rw [show tX :: (l' ++ [clast]) = (tX :: l') ++ [clast] from rfl,
        show l'.length + 1 = (tX :: l').length from by simp]
    exact lget_append_len _ _
  have hlget2 : (tX :: (l' ++ [clast, ch]))[1 + l'.length]?.getD default = clast := by
    rw [show tX :: (l' ++ [clast, ch]) = (tX :: l') ++ [clast, ch] from rfl,
        Nat.add_comm,
        List.getElem?_append_right (by simp)]
    simp
  have hb2 : 1 + l'.length < (tX :: (l' ++ [clast, ch])).length := by
    simp
    omega
  have hlget3 : (tX :: (l' ++ [clast, ch]))[1 + l'.length] = clast := by
    have h2 := hlget2
    rw [List.getElem?_eq_getElem hb2] at h2
    simpa using h2
  unfold addParsedFeatureLine
  simp only [show (c1State x f tX (l' ++ [clast])).eof = false from rfl,
    Bool.false_eq_true, if_false]
  unfold bufferParsedLine bufferIdStep
  dsimp only [c1State]
  rw [hids, hpar, hder]
  simp +arith [alookup, aset, lget, hxf, hbn, bind, Except.bind, pure,
        Except.pure, resolveReferencesTo, resolveReferencesFrom,
        resolveRefsKind, markCompletedRefs, c1State, hlast, hlget, hlget2,
        hlget3, htyeq, List.range'_1_concat]

theorem c1_fold {cfg : PCfg} (hb : cfg.bufferSize = none) {x f : String}
    (hxf : ¬ x = f) (tX : FeatureLine) :
    ∀ (chs : List FeatureLine), chs ≠ [] →
      (∀ ch ∈ chs, lineIds ch = [f]) →
      (∀ ch ∈ chs, lineParents ch = [x]) →
      (∀ ch ∈ chs, lineDerives cfg ch = []) →
      (∀ ch1 ∈ chs, ∀ ch2 ∈ chs, ch1.type = ch2.type) →
      chs.foldlM (fun s fl => addParsedFeatureLine cfg fl s) (c1StateT x tX) =
        .ok (c1State x f tX chs) := by
  intro chs
  induction chs using List.reverseRecOn with
  | nil => intro h; exact absurd rfl h
  | append_singleton l ch ih =>
    intro _ hids hpar hder hty
    rcases List.eq_nil_or_concat l with rfl | ⟨l2, clast, rfl⟩
    · simp only [List.nil_append, List.foldlM_cons, List.foldlM_nil]
      rw [c1_stepC1 hb hxf (hids ch (by simp)) (hpar ch (by simp))
        (hder ch (by simp))]
      simp [bind, Except.bind, pure, Except.pure]
    · simp only [List.concat_eq_append] at ih hids hpar hder hty ⊢
      rw [List.foldlM_append]
      rw [ih (by simp)
        (fun c hc => hids c (List.mem_append_left _ hc))
        (fun c hc => hpar c (List.mem_append_left _ hc))
        (fun c hc => hder c (List.mem_append_left _ hc))
        (fun c1 h1 c2 h2 => hty c1 (List.mem_append_left _ h1)
          c2 (List.mem_append_left _ h2))]
      simp only [bind, Except.bind, List.foldlM_cons, List.foldlM_nil]
      rw [c1_stepC2 hb hxf l2 (hids ch (by simp)) (hpar ch (by simp))
        (hder ch (by simp))
        (hty clast (by simp) ch (by simp))]
      simp [bind, Except.bind, pure, Except.pure]

/-- **C1 amended** — Backward references are deduplicated by the
completed-reference table: for a target line `X` (single fresh ID `x`, no
references) followed by any nonempty run of lines of one feature `f` that
all repeat `Parent=x` (same `type`, unlimited buffer), `x`'s line ends with
exactly one `child_features` entry for the `f` feature, however many times
the reference is repeated.  (The forward case is refuted by the C1
counterexample: there each repetition adds another entry.) -/
theorem c1_backward_dedup (cfg : PCfg) (hb : cfg.bufferSize = none)
    (x f : String) (hxf : ¬ x = f) (tX : FeatureLine) (chs : List FeatureLine)
    (hne : chs ≠ [])
    (hidsT : lineIds tX = [x]) (hparT : lineParents tX = [])
    (hderT : lineDerives cfg tX = [])
    (hids : ∀ ch ∈ chs, lineIds ch = [f])
    (hpar : ∀ ch ∈ chs, lineParents ch = [x])
    (hder : ∀ ch ∈ chs, lineDerives cfg ch = [])
    (hty : ∀ ch1 ∈ chs, ∀ ch2 ∈ chs, ch1.type = ch2.type) :
    ∃ s, feedParsed cfg (tX :: chs) = .ok s ∧
      lget s.childF 0 = [1] ∧ (lget s.childF 0).count 1 = 1 ∧
      s.byId = [(x, 0), (f, 1)] ∧ lget s.feats 0 = [0] ∧
      lget s.feats 1 = List.range' 1 chs.length ∧
      lget s.lines 0 = tX := by
  refine ⟨c1State x f tX chs, ?_, ?_, ?_, ?_, ?_, ?_, ?_⟩
  · unfold feedParsed
    rw [List.foldlM_cons, c1_stepT hb hidsT hparT hderT]
    simp only [bind, Except.bind]
    exact c1_fold hb hxf tX chs hne hids hpar hder hty
  · simp [c1State, lget]
  · simp [c1State, lget]
  · rfl
  · simp [c1State, lget]
  · simp [c1State, lget]
  · simp [c1State, lget]

theorem c1_backward_dedup_witness :
    ¬ ("X" : String) = "f1" ∧
    ([parseFeatureU c1ChildA, parseFeatureU c1ChildB] : List FeatureLine) ≠ [] ∧
    lineIds (parseFeatureU c1Target) = ["X"] ∧
    (∀ ch ∈ [parseFeatureU c1ChildA, parseFeatureU c1ChildB], lineIds ch = ["f1"]) ∧
    (∃ s, feedParsed syncCfg
        (parseFeatureU c1Target ::
          [parseFeatureU c1ChildA, parseFeatureU c1ChildB]) = .ok s ∧
      lget s.childF 0 = [1] ∧ (lget s.childF 0).count 1 = 1 ∧
      s.byId = [("X", 0), ("f1", 1)] ∧ lget s.feats 0 = [0] ∧
      lget s.feats 1 = List.range' 1
        ([parseFeatureU c1ChildA, parseFeatureU c1ChildB] : List FeatureLine).length ∧
      lget s.lines 0 = parseFeatureU c1Target) :=
  ⟨by decide, by decide, by decide, by decide,
    c1_backward_dedup syncCfg rfl "X" "f1" (by decide) (parseFeatureU c1Target)
      [parseFeatureU c1ChildA, parseFeatureU c1ChildB] (by decide) (by decide)
      (by decide) (by decide) (by decide) (by decide) (by decide) (by decide)⟩

theorem lget_eq_getElem {α : Type} [Inhabited α] {l : List α} {i : Nat}
    (h : i < l.length) : lget l i = l[i] := by
  unfold lget
  rw [List.getD_eq_getElem?_getD, List.getElem?_eq_getElem h]
  rfl

theorem lget_take {α : Type} [Inhabited α] (l : List α) {m i : Nat}
    (h : i < m) : lget (l.take m) i = lget l i := by
  unfold lget
  rw [List.getD_eq_getElem?_getD, List.getD_eq_getElem?_getD,
      List.getElem?_take_of_lt h]

theorem lget_replicate {α : Type} [Inhabited α] {n : Nat} (a : α) {i : Nat}
    (h : i < n) : lget (List.replicate n a) i = a := by
  unfold lget
  rw [List.getD_eq_getElem?_getD, List.getElem?_replicate_of_lt h]
  rfl

theorem lget_map_range_singleton {n j : Nat} (h : j < n) :
    lget ((List.range n).map (fun i => [i])) j = [j] := by
  unfold lget
  rw [List.getD_eq_getElem?_getD, List.getElem?_map]
  rw [List.getElem?_range h]
  rfl

theorem alookup_mapRange_none {ids : List String} (hnd : ids.Nodup) {m : Nat}
    (hm : m < ids.length) :
    ∀ (n a : Nat), a + n ≤ m →
      alookup ((List.range' a n).map (fun i => (lget ids i, i))) (lget ids m) =
        none := by
  intro n
  induction n with
  | zero => intro a _; rfl
  | succ k ihn =>
    intro a h
    rw [List.range'_succ]
    simp only [List.map_cons]
    show (if lget ids a = lget ids m then _ else _) = _
    have ha : a < m := by omega
    have hne : ¬ lget ids a = lget ids m := by
      rw [lget_eq_getElem (by omega), lget_eq_getElem hm]
      intro hEq
      have := (List.Nodup.getElem_inj_iff hnd).mp hEq
      omega
    rw [if_neg hne]
    exact ihn (a + 1) (by omega)

def evCount (cfg : PCfg) (m : Nat) : Nat :=
  match cfg.bufferSize with
  | none => 0
  | some b => m - b

def c8Mid (fls : List FeatureLine) (ids : List String) (m e : Nat) : PState :=
  { eof := false, lineNumber := m + 1
    lines := fls.take m ++ [lget fls m]
    childF := List.replicate m [] ++ [[]]
    derivedF := List.replicate m [] ++ [[]]
    feats := (List.range (m + 1)).map (fun i => [i])
    topLevel := List.range' e (m - e)
    byId := (List.range' e (m - e)).map (fun i => (lget ids i, i))
    completedRefs := [], orphans := []
    emittedF := List.range e, directives := [], comments := [], errors := [] }

def c8State (cfg : PCfg) (fls : List FeatureLine) (ids : List String)
    (m : Nat) : PState :=
  { eof := false, lineNumber := m
    lines := fls.take m
    childF := List.replicate m []
    derivedF := List.replicate m []
    feats := (List.range m).map (fun i => [i])
    topLevel := List.range' (evCount cfg m) (m - evCount cfg m)
    byId := (List.range' (evCount cfg m) (m - evCount cfg m)).map
      (fun i => (lget ids i, i))
    completedRefs := [], orphans := []
    emittedF := List.range (evCount cfg m)
    directives := [], comments := [], errors := [] }

def c8Final (fls : List FeatureLine) : PState :=
  { eof := false, lineNumber := fls.length
    lines := fls
    childF := List.replicate fls.length []
    derivedF := List.replicate fls.length []
    feats := (List.range fls.length).map (fun i => [i])
    topLevel := [], byId := [], completedRefs := [], orphans := []
    emittedF := List.range fls.length
    directives := [], comments := [], errors := [] }

theorem evictLoop_nil (b : Option Nat) (add : Nat) (s : PState) :
    evictLoop b add [] s = { s with topLevel := [] } := rfl

theorem evictLoop_cons_noEvict {k : Nat} (add : Nat) {h : Nat} {t : List Nat}
    (s : PState) (hcond : ¬ k < t.length + 1 + add) :
    evictLoop (some k) add (h :: t) s = { s with topLevel := h :: t } := by
  rw [evictLoop.eq_def]
  dsimp only
  rw [if_neg hcond]

theorem evictLoop_cons_evict {k : Nat} (add : Nat) {h : Nat} {t : List Nat}
    (s : PState) (hcond : k < t.length + 1 + add) :
    evictLoop (some k) add (h :: t) s =
      evictLoop (some k) add t
        (unbufferItem (s.feats.length + 1) h (emitFeature h s)) := by
  rw [evictLoop.eq_def]
  dsimp only
  rw [if_pos hcond]

theorem c8_enforce (cfg : PCfg) (hbz : cfg.bufferSize ≠ some 0)
    (fls : List FeatureLine) (ids : List String) (m : Nat)
    (hm : m < fls.length)
    (hidsv : ∀ k, k < fls.length → lineIds (lget fls k) = [lget ids k])
    (hne : ∀ k, k < fls.length → ¬ lget ids k = "") :
    enforceBufferSizeLimit cfg 1 (c8Mid fls ids m (evCount cfg m)) =
      c8Mid fls ids m (evCount cfg (m + 1)) := by
  rcases hcb : cfg.bufferSize with _ | b
  · rw [enforceBufferSizeLimit_none hcb,
        show evCount cfg m = evCount cfg (m + 1) from by simp [evCount, hcb]]
  · rcases Nat.eq_zero_or_pos b with rfl | hb1
    · exact absurd hcb hbz
    unfold enforceBufferSizeLimit
    rw [hcb]
    by_cases hmb : m < b
    · -- queue below the limit: nothing happens
      have hev : evCount cfg m = 0 := by simp [evCount, hcb]; omega
      have hev2 : evCount cfg (m + 1) = 0 := by simp [evCount, hcb]; omega
      rw [hev, hev2]
      have htl : (c8Mid fls ids m 0).topLevel = List.range' 0 (m - 0) := rfl
      rcases m with _ | k
      · rw [show (c8Mid fls ids 0 0).topLevel = [] from rfl, evictLoop_nil]
        rfl
      · rw [show (c8Mid fls ids (k + 1) 0).topLevel =
            0 :: List.range' 1 k from by
          rw [htl]
          simp [List.range'_succ]]
        rw [evictLoop_cons_noEvict 1 _ (by simp; omega)]
        have : (0 : Nat) :: List.range' 1 k =
            (c8Mid fls ids (k + 1) 0).topLevel := by
          rw [htl]
          simp [List.range'_succ]
        rw [this, setTopLevel_self rfl]
    · -- queue at the limit: exactly one eviction
      push_neg at hmb
      have hev : evCount cfg m = m - b := by simp [evCount, hcb]
      have hev2 : evCount cfg (m + 1) = (m - b) + 1 := by
        simp [evCount, hcb]; omega
      rw [hev, hev2]
      have hmev : m - (m - b) = b := by omega
      have hbm1 : b = (b - 1) + 1 := by omega
      have htl : (c8Mid fls ids m (m - b)).topLevel =
          (m - b) :: List.range' (m - b + 1) (b - 1) := by
        show List.range' (m - b) (m - (m - b)) = _
        rw [show m - (m - b) = (b - 1) + 1 from by omega, List.range'_succ]
      rw [htl, evictLoop_cons_evict 1 _ (by simp; omega)]
      have hevm : m - b < m := by omega
      have hflen : (c8Mid fls ids m (m - b)).feats.length = m + 1 := by
        show ((List.range (m + 1)).map _).length = m + 1
        simp
      rw [hflen]
      -- reduce the unbuffering of feature (m - b)
      have hlinesv : lget (c8Mid fls ids m (m - b)).lines (m - b) =
          lget fls (m - b) := by
        show lget (fls.take m ++ [lget fls m]) (m - b) = _
        rw [lget_append_lt (by simp; omega), lget_take _ hevm]
      have hunb : unbufferItem (m + 1 + 1) (m - b)
          (emitFeature (m - b) (c8Mid fls ids m (m - b))) =
          { c8Mid fls ids m (m - b) with
              emittedF := List.range (m - b) ++ [m - b]
              byId := (List.range' (m - b + 1) (b - 1)).map
                (fun i => (lget ids i, i)) } := by
        show unbufferStep (unbufferItem (m + 1)) (m - b) _ = _
        unfold unbufferStep
        rw [show lget (emitFeature (m - b) (c8Mid fls ids m (m - b))).feats
            (m - b) = [m - b] from by
          show lget ((List.range (m + 1)).map (fun i => [i])) (m - b) = _
          exact lget_map_range_singleton (by omega)]
        dsimp only
        rw [show lget (emitFeature (m - b) (c8Mid fls ids m (m - b))).lines
            (m - b) = lget fls (m - b) from hlinesv]
        rw [hidsv (m - b) (by omega)]
        dsimp only [List.head?]
        rw [if_neg (hne (m - b) (by omega))]
        simp only [List.foldl_cons, List.foldl_nil]
        rw [show lget (emitFeature (m - b) (c8Mid fls ids m (m - b))).childF
            (m - b) = [] from by
          show lget (List.replicate m [] ++ [[]]) (m - b) = []
          rw [lget_append_lt (by simp; omega)]
          exact lget_replicate _ (by omega)]
        rw [List.foldl_nil]
        dsimp only
        rw [show lget (emitFeature (m - b) (c8Mid fls ids m (m - b))).derivedF
            (m - b) = [] from by
          show lget (List.replicate m [] ++ [[]]) (m - b) = []
          rw [lget_append_lt (by simp; omega)]
          exact lget_replicate _ (by omega)]
        rw [List.foldl_nil]
        have harem : aremove
            (emitFeature (m - b) (c8Mid fls ids m (m - b))).byId
            (lget ids (m - b)) = (List.range' (m - b + 1) (b - 1)).map
              (fun i => (lget ids i, i)) := by
          show aremove ((List.range' (m - b) (m - (m - b))).map
            (fun i => (lget ids i, i))) (lget ids (m - b)) = _
          rw [show m - (m - b) = (b - 1) + 1 from by omega, List.range'_succ,
            List.map_cons]
          show (if lget ids (m - b) = lget ids (m - b) then _ else _) = _
          rw [if_pos rfl]
        rw [harem]
        rfl
      rw [hunb]
      -- no further eviction
      rcases hb2 : b - 1 with _ | k
      · rw [List.range'_zero, evictLoop_nil]
        show _ = c8Mid fls ids m (m - b + 1)
        have h1 : m - (m - b + 1) = 0 := by omega
        simp [c8Mid, h1, List.range_succ]
      · rw [List.range'_succ, evictLoop_cons_noEvict 1 _ (by simp; omega)]
        show _ = c8Mid fls ids m (m - b + 1)
        have h1 : m - (m - b + 1) = k + 1 := by omega
        simp [c8Mid, h1, List.range_succ, List.range'_succ]

theorem c8_step (cfg : PCfg) (hbz : cfg.bufferSize ≠ some 0)
    (fls : List FeatureLine) (ids : List String) (m : Nat)
    (hm : m < fls.length) (hlen : ids.length = fls.length) (hnd : ids.Nodup)
    (hidsv : ∀ k, k < fls.length → lineIds (lget fls k) = [lget ids k])
    (hne : ∀ k, k < fls.length → ¬ lget ids k = "")
    (hpar : lineParents (lget fls m) = [])
    (hder : lineDerives cfg (lget fls m) = []) :
    addParsedFeatureLine cfg (lget fls m) (c8State cfg fls ids m) =
      .ok (c8State cfg fls ids (m + 1)) := by
  have hm2 : m < ids.length := by omega
  have hevle : evCount cfg m ≤ m := by
    rcases hcb : cfg.bufferSize with _ | b <;> simp [evCount, hcb]
  have htkl : (fls.take m).length = m := by
    rw [List.length_take]
    omega
  unfold addParsedFeatureLine
  simp only [show (c8State cfg fls ids m).eof = false from rfl,
    Bool.false_eq_true, if_false]
  unfold bufferParsedLine bufferIdStep
  dsimp only [c8State]
  rw [hidsv m hm, hpar, hder]
  simp only [List.isEmpty_nil, List.isEmpty_cons, Bool.false_and, Bool.and_false,
    Bool.and_true, Bool.false_eq_true, if_false]
  simp only [List.foldlM_cons, List.foldlM_nil]
  rw [alookup_mapRange_none hnd hm2 (m - evCount cfg m) (evCount cfg m)
    (by omega)]
  simp only [htkl]
  have hS2 :
      ({ eof := false, lineNumber := m + 1,
         lines := List.take m fls ++ [lget fls m],
         childF := List.replicate m [] ++ [[]],
         derivedF := List.replicate m [] ++ [[]],
         feats := List.map (fun i => [i]) (List.range m) ++ [[m]],
         topLevel := List.range' (evCount cfg m) (m - evCount cfg m),
         byId := List.map (fun i => (lget ids i, i))
           (List.range' (evCount cfg m) (m - evCount cfg m)),
         completedRefs := [], orphans := [],
         emittedF := List.range (evCount cfg m),
         directives := [], comments := [], errors := [] } : PState) =
      c8Mid fls ids m (evCount cfg m) := by
    simp [c8Mid, List.range_succ]
  rw [hS2, c8_enforce cfg hbz fls ids m hm hidsv hne]
  have hev2le : evCount cfg (m + 1) ≤ m := by
    rcases hcb : cfg.bufferSize with _ | b
    · simp [evCount, hcb]
    · rcases b with _ | b2
      · exact absurd hcb hbz
      · simp only [evCount, hcb]
        omega
  have haset := aset_eq_append_of_lookup_none
    (alookup_mapRange_none hnd hm2 (m - evCount cfg (m + 1))
      (evCount cfg (m + 1)) (by omega)) (m : Nat)
  have htl2 : List.range' (evCount cfg (m + 1)) (m - evCount cfg (m + 1)) ++
      [m] = List.range' (evCount cfg (m + 1)) (m + 1 - evCount cfg (m + 1)) := by
    rw [show m + 1 - evCount cfg (m + 1) = (m - evCount cfg (m + 1)) + 1 from
      by omega, List.range'_1_concat,
      show evCount cfg (m + 1) + (m - evCount cfg (m + 1)) = m from by omega]
  have hbyid2 : (List.range' (evCount cfg (m + 1))
        (m - evCount cfg (m + 1))).map (fun i => (lget ids i, i)) ++
      [(lget ids m, m)] =
      (List.range' (evCount cfg (m + 1)) (m + 1 - evCount cfg (m + 1))).map
        (fun i => (lget ids i, i)) := by
    rw [← htl2, List.map_append]
    rfl
  have htake : List.take (m + 1) fls = List.take m fls ++ [lget fls m] := by
    rw [List.take_succ, List.getElem?_eq_getElem hm, lget_eq_getElem hm]
    rfl
  have hrep : List.replicate m ([] : List Nat) ++ [[]] =
      List.replicate (m + 1) ([] : List Nat) := by
    rw [List.replicate_add]
    rfl
  simp [bind, Except.bind, pure, Except.pure, c8Mid, c8State,
        resolveReferencesFrom_nil, haset, htl2, hbyid2, htake, hrep,
        resolveReferencesTo, alookup]

theorem c8_fold (cfg : PCfg) (hbz : cfg.bufferSize ≠ some 0)
    (fls : List FeatureLine) (ids : List String)
    (hlen : ids.length = fls.length) (hnd : ids.Nodup)
    (hidsv : ∀ k, k < fls.length → lineIds (lget fls k) = [lget ids k])
    (hne : ∀ k, k < fls.length → ¬ lget ids k = "")
    (hpar : ∀ fl ∈ fls, lineParents fl = [])
    (hder : ∀ fl ∈ fls, lineDerives cfg fl = []) :
    feedParsed cfg fls = .ok (c8State cfg fls ids fls.length) := by
  have H : ∀ (rest done : List FeatureLine), fls = done ++ rest →
      rest.foldlM (fun s fl => addParsedFeatureLine cfg fl s)
        (c8State cfg fls ids done.length) =
        .ok (c8State cfg fls ids fls.length) := by
    intro rest
    induction rest with
    | nil =>
      intro done h
      rw [List.foldlM_nil, show fls.length = done.length from by
        rw [h]; simp]
      rfl
    | cons fl rest2 ih =>
      intro done h
      have hdlt : done.length < fls.length := by rw [h]; simp
      have hfl : lget fls done.length = fl := by
        rw [h]
        unfold lget
        rw [List.getD_eq_getElem?_getD,
          List.getElem?_append_right (Nat.le_refl _)]
        simp
      rw [List.foldlM_cons]
      rw [show addParsedFeatureLine cfg fl (c8State cfg fls ids done.length) =
          .ok (c8State cfg fls ids (done.length + 1)) from by
        rw [← hfl]
        exact c8_step cfg hbz fls ids done.length hdlt hlen hnd hidsv hne
          (by rw [hfl]; exact hpar fl (by rw [h]; simp))
          (by rw [hfl]; exact hder fl (by rw [h]; simp))]
      simp only [bind, Except.bind]
      have h2 : fls = (done ++ [fl]) ++ rest2 := by rw [h]; simp
      have := ih (done ++ [fl]) h2
      rw [show (done ++ [fl]).length = done.length + 1 from by simp] at this
      exact this
  have hinit : c8State cfg fls ids 0 = initPState := by
    have hev0 : evCount cfg 0 = 0 := by
      rcases hcb : cfg.bufferSize with _ | b <;> simp [evCount, hcb]
    simp [c8State, initPState, hev0]
  unfold feedParsed
  rw [← hinit]
  exact H fls [] rfl

theorem c8_run (cfg : PCfg) (hbz : cfg.bufferSize ≠ some 0)
    (fls : List FeatureLine) (ids : List String)
    (hlen : ids.length = fls.length) (hnd : ids.Nodup)
    (hidsv : ∀ k, k < fls.length → lineIds (lget fls k) = [lget ids k])
    (hne : ∀ k, k < fls.length → ¬ lget ids k = "")
    (hpar : ∀ fl ∈ fls, lineParents fl = [])
    (hder : ∀ fl ∈ fls, lineDerives cfg fl = []) :
    runParsed cfg fls = .ok (c8Final fls) := by
  have hevle : evCount cfg fls.length ≤ fls.length := by
    rcases hcb : cfg.bufferSize with _ | b <;> simp [evCount, hcb]
  unfold runParsed
  rw [show feedParsed cfg fls = .ok (c8State cfg fls ids fls.length) from
    c8_fold cfg hbz fls ids hlen hnd hidsv hne hpar hder]
  simp only [bind, Except.bind]
  unfold finishP emitAllUnderConstruction
  dsimp only [c8State]
  rw [if_pos (show (([] : List (String × (List Nat × List Nat)))).isEmpty =
    true from rfl)]
  have hconcat : List.range (evCount cfg fls.length) ++
      List.range' (evCount cfg fls.length)
        (fls.length - evCount cfg fls.length) = List.range fls.length := by
    rw [List.range_eq_range', List.range_eq_range']
    rw [show List.range' (evCount cfg fls.length)
        (fls.length - evCount cfg fls.length) =
        List.range' (0 + 1 * evCount cfg fls.length)
          (fls.length - evCount cfg fls.length) from by simp]
    rw [List.range'_append]
    rw [show fls.length - evCount cfg fls.length +
        evCount cfg fls.length = fls.length from by omega]
  simp [c8Final, hconcat, List.take_length, pure, Except.pure]

/-- **C8 amended** — For reference-free inputs (each feature line carries
exactly one fresh nonempty `ID`, pairwise distinct, and no
`Parent`/`Derives_from` references), the delivered features are invariant
under the buffer size: any two configurations whose `bufferSize` is not 0
produce the **same** final run state, whose emission log is `0..n-1` in
input order with identical feature contents — the buffer limit changes only
when features are emitted, never which features or their contents.  (For
inputs with backward references this fails: see the C8 counterexample.) -/
theorem c8_reference_free_buffer_invariance (cfg1 cfg2 : PCfg)
    (h1 : cfg1.bufferSize ≠ some 0) (h2 : cfg2.bufferSize ≠ some 0)
    (fls : List FeatureLine) (ids : List String)
    (hlen : ids.length = fls.length) (hnd : ids.Nodup)
    (hidsv : ∀ k, k < fls.length → lineIds (lget fls k) = [lget ids k])
    (hne : ∀ k, k < fls.length → ¬ lget ids k = "")
    (hpar : ∀ fl ∈ fls, lineParents fl = [])
    (hder1 : ∀ fl ∈ fls, lineDerives cfg1 fl = [])
    (hder2 : ∀ fl ∈ fls, lineDerives cfg2 fl = []) :
    runParsed cfg1 fls = .ok (c8Final fls) ∧
    runParsed cfg2 fls = .ok (c8Final fls) ∧
    runParsed cfg1 fls = runParsed cfg2 fls ∧
    (c8Final fls).emittedF = List.range fls.length ∧
    (c8Final fls).lines = fls := by
  have r1 := c8_run cfg1 h1 fls ids hlen hnd hidsv hne hpar hder1
  have r2 := c8_run cfg2 h2 fls ids hlen hnd hidsv hne hpar hder2
  exact ⟨r1, r2, by rw [r1, r2], rfl, rfl⟩

theorem c8_reference_free_buffer_invariance_witness :
    (syncCfg.bufferSize ≠ some 0) ∧ (buf1Cfg.bufferSize ≠ some 0) ∧
    (["gene1", "X"] : List String).Nodup ∧
    (∀ k, k < ([parseFeatureU c4GeneLine, parseFeatureU c1Target] :
        List FeatureLine).length →
      lineIds (lget [parseFeatureU c4GeneLine, parseFeatureU c1Target] k) =
        [lget ["gene1", "X"] k]) ∧
    (runParsed syncCfg [parseFeatureU c4GeneLine, parseFeatureU c1Target] =
        .ok (c8Final [parseFeatureU c4GeneLine, parseFeatureU c1Target]) ∧
      runParsed buf1Cfg [parseFeatureU c4GeneLine, parseFeatureU c1Target] =
        .ok (c8Final [parseFeatureU c4GeneLine, parseFeatureU c1Target]) ∧
      runParsed syncCfg [parseFeatureU c4GeneLine, parseFeatureU c1Target] =
        runParsed buf1Cfg [parseFeatureU c4GeneLine, parseFeatureU c1Target] ∧
      (c8Final [parseFeatureU c4GeneLine, parseFeatureU c1Target]).emittedF =
        List.range ([parseFeatureU c4GeneLine, parseFeatureU c1Target] :
          List FeatureLine).length ∧
      (c8Final [parseFeatureU c4GeneLine, parseFeatureU c1Target]).lines =
        [parseFeatureU c4GeneLine, parseFeatureU c1Target]) :=
  ⟨by decide, by decide, by decide, by decide,
    c8_reference_free_buffer_invariance syncCfg buf1Cfg (by decide) (by decide)
      [parseFeatureU c4GeneLine, parseFeatureU c1Target] ["gene1", "X"]
      (by decide) (by decide) (by decide) (by decide) (by decide) (by decide)
      (by decide)⟩

end GffNostream
